import Mathlib

/-!
Verification development for the `parser` Go library: a query engine that
normalizes humanized literals, tokenizes and parses a small SQL-like query
language, and evaluates the resulting expression tree against in-memory
records.  Definitions are shallow embeddings of the functions in
`parser.go` (latest revision) and of the enhanced lexer; where the final
revision of a function is absent from the sources (only its tests remain),
the definition is modelled from the specification and says so in its doc
comment.  Go byte-level string scanning is modelled over `List Char`;
all inputs of interest are ASCII, where the two coincide.
-/

namespace QueryParser

/-- The single-quote character (string delimiter in the query language). -/
def qc : Char := Char.ofNat 39

/-- The backslash character (escape introducer inside string literals). -/
def bs : Char := Char.ofNat 92

/-- Embeds `isDigit` from parser.go: ASCII digit test (byte comparisons,
stated on the code point). -/
def isDigitB (c : Char) : Bool := 48 ≤ c.toNat && c.toNat ≤ 57

/-- Embeds `isLetter` from parser.go: ASCII letters and underscore. -/
def isLetterB (c : Char) : Bool :=
  (97 ≤ c.toNat && c.toNat ≤ 122) || (65 ≤ c.toNat && c.toNat ≤ 90) || c = '_'

/-- Embeds `isLetterOrDigit` from parser.go. -/
def isLetterOrDigitB (c : Char) : Bool := isLetterB c || isDigitB c

/-- Characters that may start a humanizer token (`isLetterOrDigit(query[i]) || query[i] == '.'`). -/
def isTokStart (c : Char) : Bool := isLetterOrDigitB c || c = '.'

/-- Characters that may continue a humanizer token (letters, digits, `.`, `,`). -/
def isTokChar (c : Char) : Bool := isLetterOrDigitB c || c = '.' || c = ','

/-- Longest prefix whose characters satisfy `p`, together with the rest. -/
def spanB (p : Char → Bool) : List Char → List Char × List Char
  | [] => ([], [])
  | c :: r =>
    if p c then
      let s := spanB p r
      (c :: s.1, s.2)
    else ([], c :: r)

/-- The decimal digit character for `n < 10`. -/
def digitChar (n : Nat) : Char := Char.ofNat (48 + n)

/-- Numeric value of a decimal digit character. -/
def digitVal (c : Char) : Nat := c.toNat - 48

/-- Value of a decimal digit string (most significant first). -/
def natOfDigits (l : List Char) : Nat := l.foldl (fun a c => a * 10 + digitVal c) 0

/-- Fuelled decimal rendering of a natural number (most significant first). -/
def natToDigitsCore : Nat → Nat → List Char
  | 0, _ => []
  | fuel + 1, n =>
    if n < 10 then [digitChar n]
    else natToDigitsCore fuel (n / 10) ++ [digitChar (n % 10)]

/-- Decimal rendering of a natural number; `n + 1` units of fuel always suffice. -/
def natToDigits (n : Nat) : List Char := natToDigitsCore (n + 1) n

/-- Scans a leading numeral `digits+ ('.' digits+)?` of a humanizer token,
returning integer digits, fraction digits and the unconsumed rest. -/
def scanNumeral (cs : List Char) : Option (List Char × List Char × List Char) :=
  let s := spanB isDigitB cs
  if s.1.isEmpty then none
  else
    match s.2 with
    | '.' :: r2 =>
      let t := spanB isDigitB r2
      if t.1.isEmpty then some (s.1, [], '.' :: r2) else some (s.1, t.1, t.2)
    | r => some (s.1, [], r)

/-- Modelled from the spec: time-duration unit suffixes (`ns, us, ms, s, m, h, d`)
with their length in nanoseconds.  Units are matched in lowercase, implementing
the deliberate case partition of §4.1 (lowercase is reserved for time units,
uppercase single letters are SI prefixes); the `µs` spelling is unreachable
because `µ` is not a token character for the ASCII chunker. -/
def durUnitNanos : List Char → Option (Nat × List Char)
  | [] => none
  | c :: r =>
    if c = 'n' then
      match r with
      | c2 :: r2 => if c2 = 's' then some (1, r2) else none
      | [] => none
    else if c = 'u' then
      match r with
      | c2 :: r2 => if c2 = 's' then some (1000, r2) else none
      | [] => none
    else if c = 'm' then
      match r with
      | c2 :: r2 => if c2 = 's' then some (1000000, r2) else some (60000000000, c2 :: r2)
      | [] => some (60000000000, [])
    else if c = 's' then some (1000000000, r)
    else if c = 'h' then some (3600000000000, r)
    else if c = 'd' then some (86400000000000, r)
    else none

/-- Modelled from the spec: compound duration parsing, one or more
`numeral unit` components, consuming the entire token; the total is kept as
an exact fraction (numerator in nanoseconds, positive power-of-ten
denominator). -/
def parseDurFrac : Nat → List Char → Option (Nat × Nat)
  | 0, _ => none
  | fuel + 1, cs =>
    match scanNumeral cs with
    | none => none
    | some (ds, fs, r) =>
      match durUnitNanos r with
      | none => none
      | some (u, r2) =>
        let num := natOfDigits (ds ++ fs) * u
        let den := 10 ^ fs.length
        match r2 with
        | [] => some (num, den)
        | _ =>
          match parseDurFrac fuel r2 with
          | none => none
          | some (n2, d2) => some (num * d2 + n2 * den, den * d2)

/-- Modelled from the spec: `parseTimeDuration` — the function exercised by
`time_byte_test.go` but absent from the sources.  Result is total whole
seconds, truncating sub-second remainders (the documented policy). -/
def parseTimeDuration (cs : List Char) : Option Nat :=
  (parseDurFrac (cs.length + 1) cs).map fun p => p.1 / (p.2 * 1000000000)

/-- Modelled from the spec: byte-size units — decimal units (powers of 1000)
and binary units (powers of 1024), matched case-sensitively against the whole
remainder of the token. -/
def byteTail (dec bin : Nat) (r : List Char) : Option Nat :=
  if r = ['B'] then some dec else if r = ['i', 'B'] then some bin else none

def byteUnitMult : List Char → Option Nat
  | [] => none
  | c :: r =>
    if c = 'B' then (if r = [] then some 1 else none)
    else if c = 'K' then byteTail 1000 1024 r
    else if c = 'M' then byteTail 1000000 (1024 ^ 2) r
    else if c = 'G' then byteTail 1000000000 (1024 ^ 3) r
    else if c = 'T' then byteTail 1000000000000 (1024 ^ 4) r
    else if c = 'P' then byteTail (1000 ^ 5) (1024 ^ 5) r
    else if c = 'E' then byteTail (1000 ^ 6) (1024 ^ 6) r
    else if c = 'Z' then byteTail (1000 ^ 7) (1024 ^ 7) r
    else if c = 'Y' then byteTail (1000 ^ 8) (1024 ^ 8) r
    else none

/-- Modelled from the spec: `parseByteSize` — numeral followed by exactly one
byte unit; the value is truncated to whole bytes. -/
def parseByteSize (cs : List Char) : Option Nat :=
  match scanNumeral cs with
  | none => none
  | some (ds, fs, r) =>
    match byteUnitMult r with
    | none => none
    | some m => some (natOfDigits (ds ++ fs) * m / 10 ^ fs.length)

/-- Modelled from the spec: SI prefixes — exactly one trailing uppercase
letter from `K,M,G,T,P,E,Z,Y`, each worth a power of ten. -/
def siExp (c : Char) : Option Nat :=
  if c = 'K' then some 3
  else if c = 'M' then some 6
  else if c = 'G' then some 9
  else if c = 'T' then some 12
  else if c = 'P' then some 15
  else if c = 'E' then some 18
  else if c = 'Z' then some 21
  else if c = 'Y' then some 24
  else none

/-- Drops trailing `'0'` characters. -/
def stripTrailingZeros (l : List Char) : List Char :=
  (l.reverse.dropWhile (fun c => c = '0')).reverse

/-- Canonical integer-part rendering: leading zeros dropped, `0` when empty. -/
def canonInt (l : List Char) : List Char :=
  let s := l.dropWhile (fun c => c = '0')
  if s.isEmpty then ['0'] else s

/-- Modelled from the spec: normalization of an SI-prefixed numeral.  The
multiplier is a power of ten, so the value is rendered exactly by shifting
the decimal point. -/
def parseSINorm (cs : List Char) : Option (List Char) :=
  match scanNumeral cs with
  | none => none
  | some (ds, fs, r) =>
    match r with
    | [u] =>
      match siExp u with
      | none => none
      | some k =>
        let allf := fs ++ List.replicate k '0'
        let ipart := ds ++ allf.take k
        let fpart := stripTrailingZeros (allf.drop k)
        some (canonInt ipart ++ if fpart.isEmpty then [] else '.' :: fpart)
    | _ => none

/-- Modelled from the spec: comma-grouped integers — a token containing `,`
but no `.` has its commas stripped and is parsed as an integer. -/
def parseCommaInt (cs : List Char) : Option Nat :=
  if cs.contains ',' && !cs.contains '.' then
    let stripped := cs.filter (fun c => c ≠ ',')
    if !stripped.isEmpty && stripped.all isDigitB then some (natOfDigits stripped)
    else none
  else none

/-- Modelled from the spec: per-token humanizer rules of §4.1 in priority
order — time durations, then byte sizes, then SI prefixes, then
comma-grouped integers; an unmatched token is emitted unchanged.  The final
revision of this rule set is absent from the sources (its tests in
`time_byte_test.go` and `si_case_test.go` reference `parseTimeDuration` and
`parseByteSize`, which no source file defines); the revision in `parser.go`
delegates to the external `go-humanize` library and lacks the time rule
entirely. -/
def normToken (t : List Char) : List Char :=
  match parseTimeDuration t with
  | some n => natToDigits n
  | none =>
    match parseByteSize t with
    | some n => natToDigits n
    | none =>
      match parseSINorm t with
      | some out => out
      | none =>
        match parseCommaInt t with
        | some n => natToDigits n
        | none => t

/-- Embeds the quoted-string scan of `normalizeHumanizedValues`: consumes up
to and including the closing quote, honouring the backslash-quote escape;
returns the consumed characters, the rest, and whether a closing quote was
found. -/
def scanQuoted : List Char → List Char × List Char × Bool
  | [] => ([], [], false)
  | c :: r =>
    if c = qc then ([c], r, true)
    else if c = bs then
      match r with
      | [] => ([c], [], false)
      | c2 :: r2 =>
        if c2 = qc then
          let s := scanQuoted r2
          (c :: c2 :: s.1, s.2.1, s.2.2)
        else
          let s := scanQuoted (c2 :: r2)
          (c :: s.1, s.2.1, s.2.2)
    else
      let s := scanQuoted r
      (c :: s.1, s.2.1, s.2.2)

/-- Embeds the scanning loop of `normalizeHumanizedValues` (parser.go):
quoted strings pass through byte-for-byte, maximal letter/digit/`.`/`,` runs
are rewritten by the token rules, all other characters are copied.  Fuelled;
one unit of fuel per consumed chunk suffices. -/
def normCore : Nat → List Char → List Char
  | 0, _ => []
  | _ + 1, [] => []
  | fuel + 1, c :: cs =>
    if c = qc then
      let s := scanQuoted cs
      c :: s.1 ++ normCore fuel s.2.1
    else if isTokStart c then
      let s := spanB isTokChar (c :: cs)
      normToken s.1 ++ normCore fuel s.2
    else c :: normCore fuel cs

/-- `normCore` with its canonical fuel, one more than the input length. -/
def normL (cs : List Char) : List Char := normCore (cs.length + 1) cs

/-- Embeds `normalizeHumanizedValues` (parser.go) with the spec-modelled
token rules: rewrites humanized literals in the raw query text. -/
def normalizeHumanizedValues (q : String) : String :=
  if q = "" then q else String.mk (normCore (q.toList.length + 1) q.toList)

/-! ### Tokens and the enhanced lexer (src/unnamed/part_003, parser.go) -/

/-- Go `TokenType` is a string type; the constants below mirror parser.go. -/
abbrev TokenType := String

def tEOF : TokenType := "EOF"
def tILLEGAL : TokenType := "ILLEGAL"
def tIDENTIFIER : TokenType := "IDENTIFIER"
def tSTRING : TokenType := "STRING"
def tNUMBER : TokenType := "NUMBER"
def tEQ : TokenType := "EQ"
def tNE : TokenType := "NE"
def tLT : TokenType := "LT"
def tGT : TokenType := "GT"
def tGE : TokenType := "GE"
def tLE : TokenType := "LE"
def tAND : TokenType := "AND"
def tOR : TokenType := "OR"
def tCONTAINS : TokenType := "CONTAINS"
def tLPAREN : TokenType := "LPAREN"
def tRPAREN : TokenType := "RPAREN"
def tIS : TokenType := "IS"
def tNULL : TokenType := "NULL"
def tNOT : TokenType := "NOT"
def tANY : TokenType := "ANY"
def tCOMMA : TokenType := "COMMA"

/-- Embeds Go `Token` (`Type`/`Literal`). -/
structure Token where
  kind : TokenType
  literal : String
deriving DecidableEq, Repr

/-- ASCII uppercase of one character (model of `strings.ToUpper` per char). -/
def upChar (c : Char) : Char :=
  if 'a' ≤ c && c ≤ 'z' then Char.ofNat (c.toNat - 32) else c

/-- ASCII uppercase of a character list. -/
def toUpperL (l : List Char) : List Char := l.map upChar

/-- Embeds `LookupIdentifier` (parser.go): case-insensitive keyword table. -/
def LookupIdentifier (identifier : String) : TokenType :=
  match String.mk (toUpperL identifier.toList) with
  | "AND" => tAND
  | "OR" => tOR
  | "CONTAINS" => tCONTAINS
  | "IS" => tIS
  | "NULL" => tNULL
  | "NOT" => tNOT
  | "ANY" => tANY
  | _ => tIDENTIFIER

/-- Whitespace skipped by `skipWhitespace`. -/
def isWS (c : Char) : Bool :=
  c = ' ' || c = Char.ofNat 9 || c = Char.ofNat 10 || c = Char.ofNat 13

/-- The in-band marker `readString` prepends to an unclosed string literal. -/
def sentinel : List Char := "_UNCLOSED_STRING_".toList

/-- Whether `l` starts with `p`. -/
def startsWithL : List Char → List Char → Bool
  | _, [] => true
  | [], _ :: _ => false
  | c :: l, p :: ps => c = p && startsWithL l ps

/-- Embeds the scanning loop of `EnhancedLexer.readString`, applied to the
characters after the opening quote: returns the consumed content, the rest
of the input, and whether a closing quote was found.  A NUL character stops
the scan exactly like end of input does in Go (`l.ch == 0`). -/
def readStrCore : List Char → List Char × List Char × Bool
  | [] => ([], [], false)
  | c :: r =>
    if c = qc then ([], r, true)
    else if c = Char.ofNat 0 then ([], c :: r, false)
    else if c = bs then
      match r with
      | [] => ([c], [], false)
      | c2 :: r2 =>
        if c2 = qc then
          let s := readStrCore r2
          (c :: c2 :: s.1, s.2.1, s.2.2)
        else
          let s := readStrCore (c2 :: r2)
          (c :: s.1, s.2.1, s.2.2)
    else
      let s := readStrCore r
      (c :: s.1, s.2.1, s.2.2)

/-- Embeds `EnhancedLexer.readString`: the literal, with the unclosed-string
sentinel prepended when no closing quote was found, and the unconsumed rest. -/
def readStringE (content : List Char) : List Char × List Char :=
  let s := readStrCore content
  (if s.2.2 then s.1 else sentinel ++ s.1, s.2.1)

/-- Embeds `EnhancedLexer.readNumber`: optional leading minus, a run of
digits and commas (commas are consumed unconditionally inside the run), an
optional fraction (a dot followed by at least one digit), and an optional
scientific-notation exponent.  Returns the literal and the rest. -/
def readNumberE (rest : List Char) : List Char × List Char :=
  let neg : List Char × List Char :=
    match rest with
    | [] => ([], [])
    | c :: r => if c = '-' then (['-'], r) else ([], c :: r)
  let s := spanB (fun c => isDigitB c || c = ',') neg.2
  if !s.1.any isDigitB then (neg.1 ++ s.1, s.2)
  else
    let fr : List Char × List Char :=
      match s.2 with
      | [] => ([], [])
      | c1 :: r1 =>
        if c1 = '.' then
          match r1 with
          | [] => ([], c1 :: r1)
          | d :: _ =>
            if isDigitB d then
              let t := spanB isDigitB r1
              ('.' :: t.1, t.2)
            else ([], c1 :: r1)
        else ([], c1 :: r1)
    let ex : List Char × List Char :=
      match fr.2 with
      | [] => ([], [])
      | e :: r3 =>
        if e = 'e' || e = 'E' then
          match r3 with
          | [] => ([], e :: r3)
          | p :: r4 =>
            if isDigitB p then
              let t := spanB isDigitB r3
              (e :: t.1, t.2)
            else if p = '+' || p = '-' then
              match r4 with
              | p2 :: _ =>
                if isDigitB p2 then
                  let t := spanB isDigitB r4
                  (e :: p :: t.1, t.2)
                else ([], e :: r3)
              | [] => ([], e :: r3)
            else ([], e :: r3)
        else ([], e :: r3)
    (neg.1 ++ s.1 ++ fr.1 ++ ex.1, ex.2)

/-- Embeds `EnhancedLexer.readIdentifier`: letters, digits, dots, underscores. -/
def readIdentifierE (rest : List Char) : List Char × List Char :=
  spanB (fun c => isLetterB c || isDigitB c || c = '.' || c = '_') rest

/-- The character that preceded the current position after consuming `l`
(`none` only when still at position zero). -/
def newPrev (p : Option Char) (consumed : List Char) : Option Char :=
  match consumed.getLast? with
  | some c => some c
  | none => p

/-- Embeds `EnhancedLexer.NextToken`.  The lexer state is the character
before the current position (for the `l.input[l.position-1]` comma check)
and the unconsumed input; returns the token and the updated state. -/
def nextTokenE (prev : Option Char) (rest : List Char) : Token × Option Char × List Char :=
  let ws := spanB isWS rest
  let p1 := newPrev prev ws.1
  match ws.2 with
  | [] => (⟨tEOF, ""⟩, p1, [])
  | c :: rs =>
    if c = '=' then (⟨tEQ, "="⟩, some c, rs)
    else if c = '!' then
      match rs with
      | '=' :: rs2 => (⟨tNE, "!="⟩, some '=', rs2)
      | _ => (⟨tILLEGAL, "!"⟩, some c, rs)
    else if c = '<' then
      match rs with
      | '=' :: rs2 => (⟨tLE, "<="⟩, some '=', rs2)
      | _ => (⟨tLT, "<"⟩, some c, rs)
    else if c = '>' then
      match rs with
      | '=' :: rs2 => (⟨tGE, ">="⟩, some '=', rs2)
      | _ => (⟨tGT, ">"⟩, some c, rs)
    else if c = '(' then (⟨tLPAREN, "("⟩, some c, rs)
    else if c = ')' then (⟨tRPAREN, ")"⟩, some c, rs)
    else if c = ',' then
      let digitAfter := match rs with | d :: _ => isDigitB d | [] => false
      let digitBefore := match p1 with | some pc => isDigitB pc | none => false
      if digitAfter && digitBefore then
        let n := readNumberE (c :: rs)
        (⟨tNUMBER, String.mk (',' :: n.1)⟩, newPrev p1 n.1, n.2)
      else (⟨tCOMMA, ","⟩, some c, rs)
    else if c = qc then
      let s := readStringE rs
      if startsWithL s.1 sentinel then
        (⟨tILLEGAL, "unclosed string: " ++ String.mk (s.1.drop sentinel.length)⟩, some qc, s.2)
      else (⟨tSTRING, String.mk s.1⟩, some qc, s.2)
    else if c = '-' then
      if (match rs with | d :: _ => isDigitB d | [] => false) then
        let n := readNumberE (c :: rs)
        (⟨tNUMBER, String.mk n.1⟩, newPrev p1 n.1, n.2)
      else (⟨tILLEGAL, "-"⟩, some c, rs)
    else if c = Char.ofNat 0 then (⟨tEOF, ""⟩, some c, rs)
    else if isLetterB c then
      let idr := readIdentifierE (c :: rs)
      (⟨LookupIdentifier (String.mk idr.1), String.mk idr.1⟩, newPrev p1 idr.1, idr.2)
    else if isDigitB c then
      let n := readNumberE (c :: rs)
      (⟨tNUMBER, String.mk n.1⟩, newPrev p1 n.1, n.2)
    else (⟨tILLEGAL, String.mk [c]⟩, some c, rs)

/-- Runs the enhanced lexer to the end of the input (each call consumes at
least one character while input remains, so length-plus-one fuel suffices). -/
def tokenizeCore : Nat → Option Char → List Char → List Token
  | 0, _, _ => []
  | fuel + 1, prev, rest =>
    match rest with
    | [] => []
    | _ :: _ =>
      let t := nextTokenE prev rest
      t.1 :: tokenizeCore fuel t.2.1 t.2.2

/-- Token stream of a query string; the parser pads with EOF on exhaustion,
matching the lexer's behaviour of returning EOF forever at end of input. -/
def tokenizeE (s : String) : List Token :=
  tokenizeCore (s.toList.length + 1) none s.toList

/-! ### The record/value model and the evaluator (parser.go) -/

/-- Runtime values reachable by the evaluator's reflection walk.  The
modelled universe covers the kinds the reference code dispatches on —
strings, signed integers (all `int` widths share one domain), booleans,
pointers, slices (with Go's nil/empty distinction), structs and
string-keyed maps; `interface{}` wrappers are represented by their
underlying value, and floating-point/unsigned fields are outside the
modelled universe. -/
inductive Value where
  | vStr (s : String)
  | vInt (n : Int)
  | vBool (b : Bool)
  | vPtr (v : Option Value)
  | vSlice (isNil : Bool) (elems : List Value)
  | vStruct (fields : List (String × Value))
  | vMap (entries : List (String × Value))
deriving Repr

/-- ASCII model of `strings.EqualFold`. -/
def eqFold (a b : String) : Bool := toUpperL a.toList == toUpperL b.toList

/-- Embeds `getMapValue` (parser.go): case-insensitive key lookup; Go map
iteration order is unspecified, the model uses entry order. -/
def getMapValue (entries : List (String × Value)) (key : String) : Option Value :=
  (entries.find? fun e => eqFold e.1 key).map fun e => e.2

/-- Embeds the struct arm of `getFieldByNameCaseInsensitive` (parser.go):
first field whose name matches case-insensitively. -/
def fieldCI (fields : List (String × Value)) (name : String) : Option Value :=
  (fields.find? fun f => eqFold f.1 name).map fun f => f.2

/-- Embeds the slice-element handling inside `getFieldValues`: non-nil
pointers are dereferenced, struct/map elements are projected through the
path segment, all other elements pass through unchanged. -/
def stepElem (part : String) (elem : Value) : List Value :=
  let e2 : Option Value :=
    match elem with
    | .vPtr none => none
    | .vPtr (some v) => some v
    | v => some v
  match e2 with
  | none => []
  | some (.vStruct fs) =>
    match fieldCI fs part with
    | some f => [f]
    | none => []
  | some (.vMap es) =>
    match getMapValue es part with
    | some f => [f]
    | none => []
  | some v => [v]

/-- Embeds one path-segment step of `getFieldValues` on one current value. -/
def stepVal (part : String) (val : Value) : List Value :=
  let v2 : Option Value :=
    match val with
    | .vPtr none => none
    | .vPtr (some v) => some v
    | v => some v
  match v2 with
  | none => []
  | some (.vSlice _ elems) => (elems.map (stepElem part)).flatten
  | some (.vStruct fs) =>
    match fieldCI fs part with
    | some f => [f]
    | none => []
  | some (.vMap es) =>
    match getMapValue es part with
    | some f => [f]
    | none => []
  | some v => [v]

/-- Go `%q` of a plain string (escape-free inputs only). -/
def goQuote (s : String) : String := "\"" ++ s ++ "\""

/-- Embeds `strings.Split(fieldPath, ".")`. -/
def splitDots : List Char → List (List Char)
  | [] => [[]]
  | c :: r =>
    if c = '.' then [] :: splitDots r
    else
      match splitDots r with
      | h :: t => (c :: h) :: t
      | [] => [[c]]

/-- Embeds the per-part loop of `getFieldValues`: after each segment an
empty value set is a `field not found` error. -/
def resolveParts (path : String) : List String → List Value → Except String (List Value)
  | [], vs => .ok vs
  | p :: ps, vs =>
    let nv := (vs.map (stepVal p)).flatten
    if nv.isEmpty then
      .error ("field " ++ goQuote p ++ " not found in path " ++ goQuote path)
    else resolveParts path ps nv

/-- Embeds the leaf flattening of `getFieldValues`: slices at the leaf are
expanded one level. -/
def flattenLeaf (vs : List Value) : List Value :=
  (vs.map fun v =>
    match v with
    | .vSlice _ es => es
    | v => [v]).flatten

/-- Embeds `getFieldValues` (parser.go): resolves a dotted field path to the
multiset of reachable values. -/
def getFieldValues (item : Value) (fieldPath : String) : Except String (List Value) :=
  match resolveParts fieldPath ((splitDots fieldPath.toList).map String.mk) [item] with
  | .error e => .error e
  | .ok vs => .ok (flattenLeaf vs)

/-- Byte-wise (ASCII) string order, as Go's `<` on strings. -/
def ltListB : List Char → List Char → Bool
  | [], [] => false
  | [], _ :: _ => true
  | _ :: _, [] => false
  | a :: as, b :: bs =>
    if a.toNat < b.toNat then true
    else if b.toNat < a.toNat then false
    else ltListB as bs

/-- Go `a < b` on strings. -/
def strLtB (a b : String) : Bool := ltListB a.toList b.toList

/-- Whether `sub` occurs inside `h` (model of `strings.Contains`). -/
def containsSub (h sub : List Char) : Bool :=
  startsWithL h sub ||
    match h with
    | [] => false
    | _ :: t => containsSub t sub

/-- Go `strings.Contains`. -/
def goContainsStr (s sub : String) : Bool := containsSub s.toList sub.toList

/-- Embeds `strconv.ParseBool`. -/
def goParseBool (s : String) : Option Bool :=
  match s with
  | "1" | "t" | "T" | "true" | "TRUE" | "True" => some true
  | "0" | "f" | "F" | "false" | "FALSE" | "False" => some false
  | _ => none

/-- Digit-string value, `none` unless nonempty and all digits. -/
def digitsToNat? (l : List Char) : Option Nat :=
  if !l.isEmpty && l.all isDigitB then some (natOfDigits l) else none

/-- Embeds `strconv.ParseInt(s, 10, 64)` with Go's error text. -/
def goParseInt (s : String) : Except String Int :=
  let syntaxErr : Except String Int :=
    .error ("strconv.ParseInt: parsing " ++ goQuote s ++ ": invalid syntax")
  let rangeErr : Except String Int :=
    .error ("strconv.ParseInt: parsing " ++ goQuote s ++ ": value out of range")
  match s.toList with
  | '-' :: r =>
    match digitsToNat? r with
    | none => syntaxErr
    | some n => if n ≤ 2 ^ 63 then .ok (-(n : Int)) else rangeErr
  | '+' :: r =>
    match digitsToNat? r with
    | none => syntaxErr
    | some n => if n ≤ 2 ^ 63 - 1 then .ok (n : Int) else rangeErr
  | l =>
    match digitsToNat? l with
    | none => syntaxErr
    | some n => if n ≤ 2 ^ 63 - 1 then .ok (n : Int) else rangeErr

/-- Commas stripped from a numeric literal before parsing. -/
def cleanCommas (s : String) : String := String.mk (s.toList.filter fun c => c ≠ ',')

/-- The string carried by a slice element for the element-wise string
comparisons (a non-nil pointer is dereferenced first; Go's `interface{}`
wrapper is implicit in the model). -/
def sliceElemStr : Value → Option String
  | .vStr s => some s
  | .vPtr (some (.vStr s)) => some s
  | _ => none

/-- Embeds `ComparisonExpression.compareValue` (parser.go): one resolved
value against the literal.  Unhandled kind/operator combinations fall
through to `false` with no error, as in Go. -/
def compareValue (field : String) (op : TokenType) (lit : String) (fv : Value) :
    Except String Bool :=
  let fv2 : Option Value :=
    match fv with
    | .vPtr none => none
    | .vPtr (some v) => some v
    | v => some v
  match fv2 with
  | none => .ok false
  | some (.vStr s) =>
    if op = tEQ then .ok (s == lit)
    else if op = tNE then .ok (s != lit)
    else if op = tLT then .ok (strLtB s lit)
    else if op = tGT then .ok (strLtB lit s)
    else if op = tLE then .ok (!strLtB lit s)
    else if op = tGE then .ok (!strLtB s lit)
    else if op = tCONTAINS then .ok (goContainsStr s lit)
    else .ok false
  | some (.vBool b) =>
    let bv := (goParseBool lit).getD false
    if op = tEQ then .ok (b == bv)
    else if op = tNE then .ok (b != bv)
    else .ok false
  | some (.vInt n) =>
    match goParseInt (cleanCommas lit) with
    | .error e =>
      .error ("invalid integer value '" ++ lit ++ "' for comparison with field '" ++
        field ++ "': " ++ e)
    | .ok v =>
      if op = tEQ then .ok (n == v)
      else if op = tNE then .ok (n != v)
      else if op = tLT then .ok (decide (n < v))
      else if op = tGT then .ok (decide (v < n))
      else if op = tLE then .ok (decide (n ≤ v))
      else if op = tGE then .ok (decide (v ≤ n))
      else .ok false
  | some (.vSlice isNil elems) =>
    if isNil then .ok false
    else if op = tCONTAINS then
      .ok (elems.any fun e =>
        match sliceElemStr e with
        | some s => s == lit || goContainsStr s lit
        | none => false)
    else if op = tEQ then
      .ok (elems.any fun e =>
        match sliceElemStr e with
        | some s => s == lit
        | none => false)
    else if op = tNE then
      .ok (!elems.any fun e =>
        match sliceElemStr e with
        | some s => s == lit
        | none => false)
    else .ok false
  | some _ => .ok false

/-- The query expression tree (parser.go expression types). -/
inductive Expr where
  | cmp (field : String) (op : TokenType) (value : String)
  | anyE (field : String) (op : TokenType) (values : List String)
  | notE (e : Expr)
  | isNullE (field : String) (negated : Bool)
  | conj (es : List Expr)
  | disj (es : List Expr)
deriving Repr

/-- Embeds the value loop of `ComparisonExpression.Evaluate`: any resolved
value may match; comparison errors are remembered and reported only when no
value matched. -/
def evalCmpVals (field : String) (op : TokenType) (lit : String) :
    List Value → Option String → Except String Bool
  | [], lastErr =>
    match lastErr with
    | some e => .error e
    | none => .ok false
  | v :: rest, lastErr =>
    match compareValue field op lit v with
    | .error e => evalCmpVals field op lit rest (some e)
    | .ok true => .ok true
    | .ok false => evalCmpVals field op lit rest lastErr

/-- Embeds `ComparisonExpression.Evaluate` (parser.go). -/
def evalCmp (field : String) (op : TokenType) (lit : String) (item : Value) :
    Except String Bool :=
  match getFieldValues item field with
  | .error _ => .error ("field '" ++ field ++ "' not found")
  | .ok [] => .error ("field '" ++ field ++ "' not found")
  | .ok vs => evalCmpVals field op lit vs none

mutual
/-- Embeds `reflect.Value.IsZero` on the modelled kinds (struct: all fields
zero; map: modelled maps are non-nil, hence never zero). -/
def goIsZero : Value → Bool
  | .vStr s => s == ""
  | .vInt n => n == 0
  | .vBool b => b == false
  | .vPtr o => o.isNone
  | .vSlice isNil _ => isNil
  | .vStruct fs => goIsZeroFields fs
  | .vMap _ => false

/-- All struct fields zero (helper of `goIsZero`). -/
def goIsZeroFields : List (String × Value) → Bool
  | [] => true
  | f :: r => goIsZero f.2 && goIsZeroFields r
end

/-- Embeds the value loop of `IsNullExpression.Evaluate`: pointers test
nilness, slices test nil-or-empty, everything else tests the zero value. -/
def isNullScan (negated : Bool) : List Value → Bool
  | [] => negated
  | v :: rest =>
    match v with
    | .vPtr o => if o.isNone then !negated else isNullScan negated rest
    | .vSlice isNil elems =>
      if isNil || elems.isEmpty then !negated else isNullScan negated rest
    | v => if goIsZero v then !negated else isNullScan negated rest

/-- Embeds `IsNullExpression.Evaluate` (parser.go). -/
def evalIsNull (field : String) (negated : Bool) (item : Value) : Except String Bool :=
  match getFieldValues item field with
  | .error _ => .error ("field '" ++ field ++ "' not found")
  | .ok [] => .error ("field '" ++ field ++ "' not found")
  | .ok vs => .ok (isNullScan negated vs)

/-- Embeds `AnyExpression.compareValue` restricted to the modelled value
kinds (strings, bools, ints, slices of strings/ints); parse errors are
swallowed exactly where Go swallows them. -/
def anySliceLoop (op : TokenType) (value : String) : List Value → Option Bool
  | [] => none
  | e :: rest =>
    let e2 : Value :=
      match e with
      | .vPtr (some v) => v
      | v => v
    match e2 with
    | .vStr s =>
      if op = tEQ && s == value then some true
      else if op = tNE && s != value then some true
      else if op = tCONTAINS && goContainsStr s value then some true
      else anySliceLoop op value rest
    | .vInt n =>
      match goParseInt value with
      | .error _ => some false
      | .ok v =>
        if op = tEQ && n == v then some true
        else if op = tNE && n != v then some true
        else if op = tLT && decide (n < v) then some true
        else if op = tGT && decide (v < n) then some true
        else if op = tLE && decide (n ≤ v) then some true
        else if op = tGE && decide (v ≤ n) then some true
        else anySliceLoop op value rest
    | _ => anySliceLoop op value rest

/-- Embeds `AnyExpression.compareValue` (parser.go): one field value
against one literal of the `ANY(...)` set. -/
def anyCompareValue (op : TokenType) (value : String) (fv : Value) : Bool :=
  let fv2 : Option Value :=
    match fv with
    | .vPtr none => none
    | .vPtr (some v) => some v
    | v => some v
  match fv2 with
  | none => false
  | some (.vStr s) =>
    if op = tEQ then s == value
    else if op = tNE then s != value
    else if op = tLT then strLtB s value
    else if op = tGT then strLtB value s
    else if op = tLE then !strLtB value s
    else if op = tGE then !strLtB s value
    else if op = tCONTAINS then goContainsStr s value
    else false
  | some (.vBool b) =>
    let bv := (goParseBool value).getD false
    if op = tEQ then b == bv
    else if op = tNE then b != bv
    else false
  | some (.vInt n) =>
    let v := ((goParseInt value).toOption).getD 0
    if op = tEQ then n == v
    else if op = tNE then n != v
    else if op = tLT then decide (n < v)
    else if op = tGT then decide (v < n)
    else if op = tLE then decide (n ≤ v)
    else if op = tGE then decide (v ≤ n)
    else false
  | some (.vSlice isNil elems) =>
    if isNil then false else (anySliceLoop op value elems).getD false
  | some _ => false

/-- Embeds `AnyExpression.Evaluate` (parser.go). -/
def evalAny (field : String) (op : TokenType) (values : List String) (item : Value) :
    Except String Bool :=
  match getFieldValues item field with
  | .error _ => .error ("field '" ++ field ++ "' not found")
  | .ok [] => .error ("field '" ++ field ++ "' not found")
  | .ok vs => .ok (vs.any fun fv => values.any fun v => anyCompareValue op v fv)

/-- Embeds the same-field detection of `ConjunctionExpression.Evaluate`:
all children plain comparisons on one field (an empty accumulated field is
overwritten, as in Go). -/
def allCmpFieldGo : List Expr → String → Option String
  | [], acc => some acc
  | e :: rest, acc =>
    match e with
    | .cmp f _ _ =>
      if acc = "" then allCmpFieldGo rest f
      else if f = acc then allCmpFieldGo rest acc
      else none
    | _ => none

/-- One child comparison tested against one candidate value, errors
ignored (`match, _ := cmp.compareValue(...)`). -/
def cmpMatches (e : Expr) (val : Value) : Bool :=
  match e with
  | .cmp f op lit =>
    match compareValue f op lit val with
    | .ok b => b
    | .error _ => false
  | _ => false

mutual
/-- Embeds the `Evaluate` dispatch over the expression kinds (parser.go). -/
def evalExpr : Expr → Value → Except String Bool
  | .cmp f op lit, item => evalCmp f op lit item
  | .anyE f op vals, item => evalAny f op vals item
  | .notE e, item =>
    match evalExpr e item with
    | .error er => .error er
    | .ok b => .ok !b
  | .isNullE f n, item => evalIsNull f n item
  | .conj [], _ => .ok false
  | .conj [e], item => evalExpr e item
  | .conj (e1 :: e2 :: rest), item =>
    let es := e1 :: e2 :: rest
    match allCmpFieldGo es "" with
    | some f =>
      match getFieldValues item f with
      | .error _ => .error ("field '" ++ f ++ "' not found")
      | .ok [] => .error ("field '" ++ f ++ "' not found")
      | .ok (v0 :: vrest) =>
        match v0 with
        | .vSlice _ elems => .ok (elems.any fun el => es.all fun e => cmpMatches e el)
        | _ => .ok ((v0 :: vrest).all fun val => es.all fun e => cmpMatches e val)
    | none => evalConjFB (e1 :: e2 :: rest) item
  | .disj es, item => evalDisjGo es item
termination_by structural e _ => e

/-- Embeds the fallback loop of `ConjunctionExpression.Evaluate`: `not
found` errors propagate, other child errors and non-matches yield `false`. -/
def evalConjFB : List Expr → Value → Except String Bool
  | [], _ => .ok true
  | e :: rest, item =>
    match evalExpr e item with
    | .error msg => if goContainsStr msg "not found" then .error msg else .ok false
    | .ok false => .ok false
    | .ok true => evalConjFB rest item
termination_by structural es _ => es

/-- Embeds `OrExpression.Evaluate` (parser.go): any child that evaluates
without error to `true` matches; child errors are ignored. -/
def evalDisjGo : List Expr → Value → Except String Bool
  | [], _ => .ok false
  | e :: rest, item =>
    match evalExpr e item with
    | .ok true => .ok true
    | _ => evalDisjGo rest item
termination_by structural es _ => es
end

/-! ### The recursive-descent parser (parser.go) -/

/-- The parser state: current and peek tokens, the not-yet-pulled rest of
the token stream (padded with EOF on exhaustion, as the lexer behaves), and
the accumulated error strings. -/
structure PSt where
  cur : Token
  peek : Token
  rest : List Token
  errs : List String
deriving Repr

/-- The lexer's end-of-input token. -/
def eofTok : Token := ⟨tEOF, ""⟩

/-- Embeds `Parser.nextToken`: pulls the next token into the peek slot and
records an error when that token is ILLEGAL. -/
def advanceP (st : PSt) : PSt :=
  let np := st.rest.headD eofTok
  { cur := st.peek, peek := np, rest := st.rest.tail,
    errs := st.errs ++ if np.kind = tILLEGAL then [np.literal] else [] }

/-- Embeds `NewParser`: two initial pulls from the zero token state. -/
def mkParser (toks : List Token) : PSt :=
  advanceP (advanceP ⟨⟨"", ""⟩, ⟨"", ""⟩, toks, []⟩)

/-- Appends one parser error. -/
def pushErr (st : PSt) (e : String) : PSt := { st with errs := st.errs ++ [e] }

/-- The comparison operators accepted by `parseComparisonWithField` and the
`ANY` clause. -/
def opOk (k : TokenType) : Bool :=
  k = tEQ || k = tNE || k = tLT || k = tGT || k = tLE || k = tGE || k = tCONTAINS

/-- Whether the literal contains an ASCII letter (Go
`strings.ContainsAny(v, "a..zA..Z")`). -/
def hasAsciiLetter (s : String) : Bool :=
  s.toList.any fun c => ('a' ≤ c && c ≤ 'z') || ('A' ≤ c && c ≤ 'Z')

/-- Whether the literal contains `e` or `E`. -/
def hasEe (s : String) : Bool := s.toList.any fun c => c = 'e' || c = 'E'

/-- Embeds `parseComparisonWithField` (parser.go): operator, literal, and
the malformed-number checks (`25abc`, letters without scientific `e`). -/
def parseCompF (field : String) (st : PSt) : Option Expr × PSt :=
  if opOk st.cur.kind then
    let operator := st.cur.kind
    let st1 := advanceP st
    let value := st1.cur.literal
    if st1.cur.kind = tNUMBER && st1.peek.kind = tIDENTIFIER then
      (none, pushErr st1 ("invalid numeric value: " ++ st1.cur.literal ++ st1.peek.literal))
    else if st1.cur.kind = tNUMBER && hasAsciiLetter value && !hasEe value then
      (none, pushErr st1 ("invalid numeric value: " ++ value))
    else (some (.cmp field operator value), advanceP st1)
  else
    (none, pushErr st ("expected operator (=, !=, <, >, <=, >=, CONTAINS), got " ++
      st.cur.kind ++ " (" ++ goQuote st.cur.literal ++ ")"))

/-- Embeds the resynchronization of `parsePrimary` after a bad
parenthesized expression: skip to the matching `)` or EOF. -/
def skipToRparenF : Nat → PSt → PSt
  | 0, st => st
  | fuel + 1, st =>
    if st.cur.kind ≠ tEOF && st.cur.kind ≠ tRPAREN then skipToRparenF fuel (advanceP st)
    else if st.cur.kind = tRPAREN then advanceP st
    else st

/-- The mutually recursive productions of the parser, merged into one
fuelled function so that every recursive call structurally decreases (the
grammar productions of parser.go: `parseOrExpression`,
`parseAndExpression`, `parsePrimary` and the `ANY` value-list loop). -/
inductive PCallK where
  | orE
  | orLoop (acc : Option Expr)
  | andE
  | andLoop (acc : Option Expr)
  | primE
  | anyVals (field : String) (op : TokenType) (vals : List String)

/-- Embeds `parseOrExpression` / `parseAndExpression` / `parsePrimary`
(parser.go).  Fuel only runs out on inputs far deeper than any token
stream the driver can produce (the driver passes ten units per token). -/
def parseStep : Nat → PCallK → PSt → Option Expr × PSt
  | 0, _, st => (none, st)
  | fuel + 1, k, st =>
    match k with
    | .orE =>
      let r := parseStep fuel .andE st
      parseStep fuel (.orLoop r.1) r.2
    | .orLoop acc =>
      if st.cur.kind = tOR then
        let r := parseStep fuel .andE (advanceP st)
        match r.1 with
        | none => (acc, pushErr r.2 "invalid expression after OR")
        | some right =>
          let newAcc : Option Expr :=
            match acc with
            | some (.disj es) => some (.disj (es ++ [right]))
            | some e => some (.disj [e, right])
            | none => some (.disj [right])
          parseStep fuel (.orLoop newAcc) r.2
      else (acc, st)
    | .andE =>
      let r := parseStep fuel .primE st
      match r.1 with
      | none => (none, r.2)
      | some _ => parseStep fuel (.andLoop r.1) r.2
    | .andLoop acc =>
      if st.cur.kind = tAND then
        let r := parseStep fuel .primE (advanceP st)
        match r.1 with
        | none => (acc, pushErr r.2 "invalid expression after AND")
        | some right =>
          let newAcc : Option Expr :=
            match acc with
            | some (.conj es) => some (.conj (es ++ [right]))
            | some e => some (.conj [e, right])
            | none => some (.conj [right])
          parseStep fuel (.andLoop newAcc) r.2
      else (acc, st)
    | .primE =>
      if st.cur.kind = tNOT then
        let r := parseStep fuel .primE (advanceP st)
        match r.1 with
        | none => (none, pushErr r.2 "invalid expression after NOT")
        | some e => (some (.notE e), r.2)
      else if st.cur.kind = tLPAREN then
        let st1 := advanceP st
        if st1.cur.kind = tRPAREN then (some (.conj []), advanceP st1)
        else
          let r := parseStep fuel .orE st1
          match r.1 with
          | none =>
            (none, skipToRparenF fuel (pushErr r.2 "invalid expression inside parentheses"))
          | some e =>
            if r.2.cur.kind = tRPAREN then (some e, advanceP r.2)
            else
              let st2 :=
                if r.2.cur.kind = tEOF then
                  pushErr r.2 "unbalanced parenthesis: missing closing parenthesis at end of input"
                else r.2
              (none, pushErr st2 "unbalanced parenthesis: missing closing )")
      else if st.cur.kind = tANY then
        let st1 := advanceP st
        if st1.cur.kind ≠ tLPAREN then (none, pushErr st1 "expected '(' after ANY")
        else
          let st2 := advanceP st1
          if st2.cur.kind ≠ tIDENTIFIER then
            (none, pushErr st2 "expected field name inside ANY()")
          else
            let field := st2.cur.literal
            let st3 := advanceP st2
            if st3.cur.kind ≠ tRPAREN then
              (none, pushErr st3 "expected ')' after field name in ANY()")
            else
              let st4 := advanceP st3
              if opOk st4.cur.kind then
                let operator := st4.cur.kind
                let st5 := advanceP st4
                if st5.cur.kind ≠ tANY then
                  if st5.cur.kind = tSTRING || st5.cur.kind = tNUMBER then
                    (some (.anyE field operator [st5.cur.literal]), advanceP st5)
                  else (none, pushErr st5 "expected ANY() for values or a direct value")
                else
                  let st6 := advanceP st5
                  if st6.cur.kind ≠ tLPAREN then (none, pushErr st6 "expected '(' after ANY")
                  else
                    let st7 := advanceP st6
                    if st7.cur.kind = tSTRING || st7.cur.kind = tNUMBER then
                      parseStep fuel (.anyVals field operator [st7.cur.literal]) (advanceP st7)
                    else (none, pushErr st7 "expected string or number value in ANY()")
              else
                (none, pushErr st4
                  "expected comparison operator (=, !=, <, >, <=, >=, CONTAINS) after ANY()")
      else if st.cur.kind = tIDENTIFIER then
        let field := st.cur.literal
        let st1 := advanceP st
        if st1.cur.kind = tIS then
          let st2 := advanceP st1
          let n : Bool × PSt := if st2.cur.kind = tNOT then (true, advanceP st2) else (false, st2)
          if n.2.cur.kind = tNULL then (some (.isNullE field n.1), advanceP n.2)
          else (none, pushErr n.2 "expected NULL after IS")
        else parseCompF field st1
      else if st.cur.kind = tEOF then (none, st)
      else (none, advanceP (pushErr st ("unexpected token: " ++ st.cur.literal)))
    | .anyVals field operator vals =>
      if st.cur.kind = tCOMMA then
        let st1 := advanceP st
        if st1.cur.kind = tSTRING || st1.cur.kind = tNUMBER then
          parseStep fuel (.anyVals field operator (vals ++ [st1.cur.literal])) (advanceP st1)
        else (none, pushErr st1 "expected string or number value after comma in ANY()")
      else if st.cur.kind = tRPAREN then (some (.anyE field operator vals), advanceP st)
      else (none, pushErr st "expected ')' after values in ANY()")

/-- Embeds the leading stray `AND`/`OR` skipping of `ParseQuery`. -/
def dropLeadingAndOr : Nat → PSt → PSt
  | 0, st => st
  | fuel + 1, st =>
    if st.cur.kind = tAND || st.cur.kind = tOR then dropLeadingAndOr fuel (advanceP st)
    else st

/-- Embeds the trailing `)` skipping of `ParseQuery`. -/
def dropRparens : Nat → PSt → PSt
  | 0, st => st
  | fuel + 1, st =>
    if st.cur.kind = tRPAREN then dropRparens fuel (advanceP st) else st

/-- Embeds `strings.Join(errs, "; ")`. -/
def joinSemi : List String → String
  | [] => ""
  | [e] => e
  | e :: rest => e ++ "; " ++ joinSemi rest

/-- Embeds `Parser.ParseQuery` (parser.go): the expression (when any), the
error returned by `ParseQuery` itself (when any), and the final parser
state. -/
def parseQueryE (fuel : Nat) (st : PSt) : Option Expr × Option String × PSt :=
  if st.cur.kind = tEOF then (none, none, st)
  else if st.cur.kind = tILLEGAL then
    (none, some st.cur.literal, pushErr st st.cur.literal)
  else
    let r := parseStep fuel .orE (dropLeadingAndOr fuel st)
    let st2 := r.2
    if st2.cur.kind = tILLEGAL then
      (none, some st2.cur.literal, pushErr st2 st2.cur.literal)
    else
      let st3 :=
        if st2.cur.kind = tRPAREN then
          dropRparens fuel (pushErr st2 "unbalanced parenthesis: unexpected closing )")
        else st2
      let st4 :=
        if st3.cur.kind ≠ tEOF && st3.errs.isEmpty then
          pushErr st3 "unexpected token after end of query"
        else st3
      if !st4.errs.isEmpty then (none, some (joinSemi st4.errs), st4)
      else (r.1, none, st4)

/-- Runs normalizer, lexer and parser on a query string. -/
def parsePipeline (q : String) : Option Expr × Option String × PSt :=
  let toks := tokenizeE (normalizeHumanizedValues q)
  parseQueryE ((toks.length + 2) * 10) (mkParser toks)

/-! ### The public driver `Parse` (parser.go) -/

/-- One element of the generic input slice: a nil pointer, a pointer to a
value, or a plain value. -/
inductive GoItem where
  | nilPtr
  | ptrTo (v : Value)
  | plain (v : Value)
deriving Repr

/-- The value the driver inspects for an item (`none` for a nil pointer,
pointers dereferenced). -/
def itemVal : GoItem → Option Value
  | .nilPtr => none
  | .ptrTo v => some v
  | .plain v => some v

/-- Go `reflect.Kind` names of the modelled kinds, for the driver's error
message. -/
def kindName : Value → String
  | .vStr _ => "string"
  | .vInt _ => "int"
  | .vBool _ => "bool"
  | .vPtr _ => "ptr"
  | .vSlice _ _ => "slice"
  | .vStruct _ => "struct"
  | .vMap _ => "map"

/-- Embeds the record loop of `Parse` (parser.go): nil pointers are
skipped, non-struct values abort, evaluation errors abort with context,
matches are collected in input order. -/
def evalLoop (ast : Expr) : List GoItem → Except String (List GoItem)
  | [] => .ok []
  | item :: rest =>
    match itemVal item with
    | none => evalLoop ast rest
    | some v =>
      match v with
      | .vStruct _ =>
        match evalExpr ast v with
        | .error e => .error ("evaluation error: " ++ e)
        | .ok true =>
          match evalLoop ast rest with
          | .error e => .error e
          | .ok out => .ok (item :: out)
        | .ok false => evalLoop ast rest
      | _ => .error ("expected slice of structs, got " ++ kindName v ++ " in data")

/-- Embeds the public generic entry point `Parse` (parser.go, latest
revision): empty query short-circuits to the whole input; otherwise
normalize, tokenize, parse (with its three error cases) and filter. -/
def ParseGo (query : String) (data : List GoItem) : Except String (List GoItem) :=
  if query = "" then .ok data
  else
    match parsePipeline query with
    | (astO, errO, st) =>
      match errO with
      | some e => .error ("failed to parse query: " ++ e)
      | none =>
        if !st.errs.isEmpty then .error ("parsing errors: " ++ joinSemi st.errs)
        else
          match astO with
          | none => .error "failed to parse query: AST is nil"
          | some ast => evalLoop ast data

/-! ### Auxiliary definitions used by the statements -/

/-- Whether an evaluation result is a successful match. -/
def isOkTrue : Except String Bool → Bool
  | .ok true => true
  | _ => false

/-- Whether an input element is a nil pointer. -/
def isNilPtrItem : GoItem → Bool
  | .nilPtr => true
  | _ => false

/-- Follows the spec's words (the naive reference semantics of §4.4, not
the source): evaluate each child comparison independently over all resolved
values and AND the child results. -/
def naiveAndMatches (es : List Expr) (item : Value) : Bool :=
  es.all fun e => isOkTrue (evalExpr e item)

/-- A record with three integer fields `A`, `B`, `C`. -/
def recABC (a b c : Int) : Value :=
  .vStruct [("A", .vInt a), ("B", .vInt b), ("C", .vInt c)]

/-- The expression tree of `A = 1 OR B = 2 AND C = 3`: OR at the root,
AND nested under it. -/
def astC7 : Expr := .disj [.cmp "A" tEQ "1", .conj [.cmp "B" tEQ "2", .cmp "C" tEQ "3"]]

/-! ### Theorems about the claims -/

/-- C1: the claim says `Parse` with the empty query returns an error and
produces no result records.  The code's own test (`parser_test.go`,
`TestEmptyQuery`) and the spec require exactly that, but the early return
`if query == "" { return data, nil }` in `Parse` makes the call succeed
with every input record — for every records slice, `Parse "" data`
returns all of `data` with no error. -/
theorem parse_empty_query_returns_all_records (data : List GoItem) :
    ParseGo "" data = .ok data := rfl

/-- C2: the value normalizer maps `Duration > 10m` to `Duration > 600`
(lowercase `m` is the minutes time unit), `Count > 10M` to
`Count > 10000000` (uppercase `M` is the SI prefix), `Size > 10GB` to
`Size > 10000000000` and `Size > 10GiB` to `Size > 10737418240`. -/
theorem normalize_humanized_disambiguation :
    normalizeHumanizedValues "Duration > 10m" = "Duration > 600" ∧
    normalizeHumanizedValues "Count > 10M" = "Count > 10000000" ∧
    normalizeHumanizedValues "Size > 10GB" = "Size > 10000000000" ∧
    normalizeHumanizedValues "Size > 10GiB" = "Size > 10737418240" := by
  refine ⟨?_, ?_, ?_, ?_⟩ <;> decide

/-- C9 counterexample: the claim says a nil-pointer element never appears
in the result collection of `Parse`, for every input slice.  With the
empty query, `Parse` returns the input slice unchanged, nil pointer
included. -/
theorem nil_pointer_in_result_counterexample :
    ParseGo "" [GoItem.nilPtr] = .ok [GoItem.nilPtr] := rfl

/-- The record loop of `Parse` never looks at nil-pointer elements: the
result is the same as on the input with them removed. -/
theorem evalLoop_filter_nil (ast : Expr) (data : List GoItem) :
    evalLoop ast data = evalLoop ast (data.filter fun i => !isNilPtrItem i) := by
  induction data with
  | nil => rfl
  | cons item rest ih =>
    cases item with
    | nilPtr => simpa [evalLoop, itemVal, isNilPtrItem] using ih
    | ptrTo v => cases v <;> simp [evalLoop, itemVal, isNilPtrItem, ih]
    | plain v => cases v <;> simp [evalLoop, itemVal, isNilPtrItem, ih]

/-- C9 amended: for every non-empty query, nil-pointer elements are
silently skipped by `Parse` — the call behaves exactly as if they were
removed from the input, so they never appear in the result, never cause a
failure, and the surviving elements keep their relative order; the empty
query instead returns the input unchanged, nil pointers included. -/
theorem parse_skips_nil_pointers (q : String) (data : List GoItem) (hq : q ≠ "") :
    ParseGo q data = ParseGo q (data.filter fun i => !isNilPtrItem i) := by
  unfold ParseGo
  rw [if_neg hq, if_neg hq]
  cases parsePipeline q with
  | mk astO rest =>
    cases rest with
    | mk errO st =>
      cases errO with
      | some e => rfl
      | none =>
        cases h : st.errs.isEmpty with
        | false => simp [h]
        | true =>
          cases astO with
          | none => simp [h]
          | some ast =>
            simp only [h]
            simpa using evalLoop_filter_nil ast data

/-- C9 witness: the nil-skipping theorem applied to a concrete query and
slice. -/
theorem parse_skips_nil_pointers_witness :
    ParseGo "Age > 0" [GoItem.nilPtr, GoItem.plain (.vStruct [("Age", .vInt 1)])] =
      ParseGo "Age > 0"
        ([GoItem.nilPtr, GoItem.plain (.vStruct [("Age", .vInt 1)])].filter
          fun i => !isNilPtrItem i) :=
  parse_skips_nil_pointers "Age > 0" _ (by decide)

/-- C8: whenever a field path resolves on a record to a single value that
is the zero value of its type — integer `0`, boolean `false` or the empty
string — `field IS NULL` evaluates to `true` and `field IS NOT NULL`
evaluates to `false`, with no error. -/
theorem is_null_zero_value_rule (r : Value) (f : String) (v : Value)
    (hres : getFieldValues r f = .ok [v])
    (hz : v = .vInt 0 ∨ v = .vBool false ∨ v = .vStr "") :
    evalExpr (.isNullE f false) r = .ok true ∧
    evalExpr (.isNullE f true) r = .ok false := by
  rcases hz with h | h | h <;> subst h <;>
    simp [evalExpr, evalIsNull, hres, isNullScan, goIsZero]

/-- C8 witness: the zero-value rule on a record whose `Age` field is 0. -/
theorem is_null_zero_value_rule_witness :
    evalExpr (.isNullE "Age" false) (.vStruct [("Age", .vInt 0)]) = .ok true ∧
    evalExpr (.isNullE "Age" true) (.vStruct [("Age", .vInt 0)]) = .ok false :=
  is_null_zero_value_rule (.vStruct [("Age", .vInt 0)]) "Age" (.vInt 0) rfl (Or.inl rfl)

/-- C3 counterexample: the claim says a comparison on a field path absent
from a record evaluates to "does not match" and never fails the filter
call.  On a record without an `Age` field, the query `Age = 1` makes the
whole `Parse` call fail with an evaluation error. -/
theorem missing_field_fails_filter_counterexample :
    ParseGo "Age = 1" [GoItem.plain (.vStruct [("Name", .vStr "Alice")])] =
      .error "evaluation error: field 'Age' not found" := rfl

/-- C3 amended: a comparison whose field path does not resolve on a record
yields a `field not found` evaluation error, which the filter call
propagates as a failure of the whole operation; only as a child of an `Or`
disjunction is such a comparison tolerated, degrading to "does not match"
while the other children decide the record. -/
theorem missing_field_comparison_errors (r : Value) (f op lit : String) (msg : String)
    (hres : getFieldValues r f = .error msg) :
    evalExpr (.cmp f op lit) r = .error ("field '" ++ f ++ "' not found") ∧
    ∀ e2 : Expr, evalExpr (.disj [.cmp f op lit, e2]) r = .ok (isOkTrue (evalExpr e2 r)) := by
  have h1 : evalCmp f op lit r = .error ("field '" ++ f ++ "' not found") := by
    simp [evalCmp, hres]
  constructor
  · simp [evalExpr, h1]
  · intro e2
    cases h2 : evalExpr e2 r with
    | error e => simp [evalExpr, evalDisjGo, h1, h2, isOkTrue]
    | ok b => cases b <;> simp [evalExpr, evalDisjGo, h1, h2, isOkTrue]

/-- C3 witness: the missing-field behaviour on a concrete record, with a
concrete sibling comparison under `Or`. -/
theorem missing_field_comparison_errors_witness :
    evalExpr (.cmp "Age" tEQ "1") (.vStruct [("Name", .vStr "Alice")]) =
      .error "field 'Age' not found" ∧
    ∀ e2 : Expr,
      evalExpr (.disj [.cmp "Age" tEQ "1", e2]) (.vStruct [("Name", .vStr "Alice")]) =
        .ok (isOkTrue (evalExpr e2 (.vStruct [("Name", .vStr "Alice")]))) :=
  missing_field_comparison_errors (.vStruct [("Name", .vStr "Alice")]) "Age" tEQ "1" _ rfl

/-- C4 counterexample: the claim says the same-field `And` optimization
returns the same boolean result as naive per-child evaluation for every
record.  On a record where `Items.V` resolves to the two values 3 and 5,
the conjunction `Items.V > 2 AND Items.V > 4` evaluates to `false` through
the optimized path (which requires every resolved value to satisfy all
children), while naive per-child evaluation yields `true` (each child is
satisfied by some resolved value). -/
theorem same_field_and_optimization_counterexample :
    evalExpr (.conj [.cmp "Items.V" tGT "2", .cmp "Items.V" tGT "4"])
        (.vStruct [("Items", .vSlice false
          [.vStruct [("V", .vInt 3)], .vStruct [("V", .vInt 5)]])]) = .ok false ∧
    naiveAndMatches [.cmp "Items.V" tGT "2", .cmp "Items.V" tGT "4"]
        (.vStruct [("Items", .vSlice false
          [.vStruct [("V", .vInt 3)], .vStruct [("V", .vInt 5)]])]) = true := by
  constructor <;> rfl

/-- C6 counterexample: the claim says a comma is included in a NUMBER
token only when both neighbouring characters are digits.  Tokenizing
`1,x` produces the NUMBER literal `1,` although the character after the
comma is `x`, not a digit. -/
theorem comma_in_number_counterexample :
    tokenizeE "1,x" = [⟨tNUMBER, "1,"⟩, ⟨tIDENTIFIER, "x"⟩] ∧ isDigitB 'x' = false := by
  constructor <;> rfl

/-- Unequal digit-classification implies unequal characters. -/
theorem digit_ne {d c : Char} (hd : isDigitB d = true) (hc : isDigitB c = false) : d ≠ c := by
  intro heq
  subst heq
  rw [hd] at hc
  cases hc

/-- `spanB` splits off a prefix of satisfying characters exactly at the
first failing character. -/
theorem spanB_append (p : Char → Bool) (a b : List Char)
    (ha : ∀ c ∈ a, p c = true)
    (hb : b = [] ∨ ∃ c t, b = c :: t ∧ p c = false) :
    spanB p (a ++ b) = (a, b) := by
  induction a with
  | nil =>
    rcases hb with rfl | ⟨c, t, rfl, hc⟩
    · rfl
    · simp [spanB, hc]
  | cons x xs ih =>
    have hx := ha x (List.mem_cons_self x xs)
    have ihr := ih fun c hc => ha c (List.mem_cons_of_mem _ hc)
    simp [spanB, hx, ihr]

/-- C6 amended: a comma encountered while the lexer is inside a number is
consumed into the NUMBER token unconditionally — in particular a comma
preceded by digits is part of the literal even when the next character is
not a digit; only a comma found at the start of a token is emitted as a
standalone COMMA token (which happens whenever it is not flanked by a
digit before and after). -/
theorem comma_in_number_amended :
    (∀ (ds : List Char) (c : Char) (tail : List Char),
       ds ≠ [] → (∀ d ∈ ds, isDigitB d = true) →
       isDigitB c = false → c ≠ ',' → c ≠ '.' → c ≠ 'e' → c ≠ 'E' →
       readNumberE (ds ++ ',' :: c :: tail) = (ds ++ [','], c :: tail)) ∧
    (∀ (prev : Option Char) (rest : List Char),
       ((match rest with | d :: _ => isDigitB d | [] => false) &&
        (match prev with | some pc => isDigitB pc | none => false)) = false →
       nextTokenE prev (',' :: rest) = (⟨tCOMMA, ","⟩, some ',', rest)) := by
  constructor
  · intro ds c tail hne hds hc hcomma hdot he hE
    obtain ⟨d, ds', rfl⟩ : ∃ d ds', ds = d :: ds' := by
      cases ds with
      | nil => exact absurd rfl hne
      | cons d ds' => exact ⟨d, ds', rfl⟩
    have hd := hds d (List.mem_cons_self d ds')
    have hdm : d ≠ '-' := digit_ne hd (by decide)
    have hspan := spanB_append (fun x => isDigitB x || x = ',') ((d :: ds') ++ [','])
      (c :: tail)
      (by
        intro x hx
        rcases List.mem_append.mp hx with hx | hx
        · simp [hds x hx]
        · simp at hx
          simp [hx])
      (Or.inr ⟨c, tail, rfl, by simp [hc, hcomma]⟩)
    simp only [List.cons_append, List.append_assoc, List.singleton_append,
      List.nil_append] at hspan
    unfold readNumberE
    simp [hdm, hspan, hd, hdot, he, hE]
  · intro prev rest
    have key : nextTokenE prev (',' :: rest) =
        (if ((match rest with | d :: _ => isDigitB d | [] => false) &&
             (match prev with | some pc => isDigitB pc | none => false)) = true then
           (⟨tNUMBER, String.mk (',' :: (readNumberE (',' :: rest)).1)⟩,
             newPrev prev (readNumberE (',' :: rest)).1, (readNumberE (',' :: rest)).2)
         else (⟨tCOMMA, ","⟩, some ',', rest)) := rfl
    intro hmatch
    rw [key, hmatch]
    simp

/-- A quote-free, NUL-free content scan runs to the end of input and
reports the string as unclosed. -/
theorem readStrCore_unclosed (t : List Char)
    (h : ∀ c ∈ t, c ≠ qc ∧ c ≠ Char.ofNat 0) :
    readStrCore t = (t, [], false) := by
  induction t with
  | nil => rfl
  | cons c r ih =>
    obtain ⟨hq, hn⟩ := h c (List.mem_cons_self c r)
    by_cases hb : c = bs
    · subst hb
      cases r with
      | nil => rfl
      | cons c2 r2 =>
        have h2 := h c2 (List.mem_cons_of_mem _ (List.mem_cons_self c2 r2))
        have ihr := ih fun x hx => h x (List.mem_cons_of_mem _ hx)
        unfold readStrCore
        simp [h2.1, ihr, (show bs ≠ qc by decide), (show bs ≠ Char.ofNat 0 by decide)]
    · have ihr := ih fun x hx => h x (List.mem_cons_of_mem _ hx)
      unfold readStrCore
      simp [hq, hn, hb, ihr]

/-- A scan over quote-, backslash- and NUL-free content stops exactly at
the closing quote. -/
theorem readStrCore_closed (u rest : List Char)
    (h : ∀ c ∈ u, c ≠ qc ∧ c ≠ bs ∧ c ≠ Char.ofNat 0) :
    readStrCore (u ++ qc :: rest) = (u, rest, true) := by
  induction u with
  | nil =>
    unfold readStrCore
    simp
  | cons c r ih =>
    obtain ⟨h1, h2, h3⟩ := h c (List.mem_cons_self c r)
    have ihr := ih fun x hx => h x (List.mem_cons_of_mem _ hx)
    unfold readStrCore
    simp [h1, h2, h3, ihr]

/-- A list starts with any of its prefixes. -/
theorem startsWithL_append (p t : List Char) : startsWithL (p ++ t) p = true := by
  induction p with
  | nil => simp [startsWithL]
  | cons c r ih => simp [startsWithL, ih]

/-- C10: the enhanced lexer signals an unclosed string in-band — the
literal returned by `readString` for an unterminated string is the content
prefixed with the sentinel `_UNCLOSED_STRING_` — and consequently
`NextToken` turns every properly closed string literal whose content
itself begins with the sentinel into an ILLEGAL `unclosed string` token
instead of a STRING token. -/
theorem unclosed_string_sentinel_rule (t : List Char)
    (h : ∀ c ∈ t, c ≠ qc ∧ c ≠ bs ∧ c ≠ Char.ofNat 0) :
    readStringE t = (sentinel ++ t, []) ∧
    ∀ (prev : Option Char) (rest : List Char),
      nextTokenE prev (qc :: (sentinel ++ t) ++ qc :: rest) =
        (⟨tILLEGAL, "unclosed string: " ++ String.mk t⟩, some qc, rest) := by
  constructor
  · have hrc : readStrCore t = (t, [], false) :=
      readStrCore_unclosed t fun c hc => ⟨(h c hc).1, (h c hc).2.2⟩
    simp [readStringE, hrc]
  · intro prev rest
    have hall : ∀ c ∈ sentinel ++ t, c ≠ qc ∧ c ≠ bs ∧ c ≠ Char.ofNat 0 := by
      intro c hc
      rcases List.mem_append.mp hc with hs | ht
      · fin_cases hs <;> exact ⟨by decide, by decide, by decide⟩
      · exact h c ht
    have hrc : readStrCore ((sentinel ++ t) ++ qc :: rest) = (sentinel ++ t, rest, true) :=
      readStrCore_closed _ rest hall
    have key : nextTokenE prev (qc :: (sentinel ++ t) ++ qc :: rest) =
        (if startsWithL (readStringE ((sentinel ++ t) ++ qc :: rest)).1 sentinel then
           (⟨tILLEGAL, "unclosed string: " ++
              String.mk ((readStringE ((sentinel ++ t) ++ qc :: rest)).1.drop sentinel.length)⟩,
             some qc, (readStringE ((sentinel ++ t) ++ qc :: rest)).2)
         else (⟨tSTRING, String.mk (readStringE ((sentinel ++ t) ++ qc :: rest)).1⟩,
             some qc, (readStringE ((sentinel ++ t) ++ qc :: rest)).2)) := rfl
    have hrc' : readStrCore (sentinel ++ (t ++ qc :: rest)) = (sentinel ++ t, rest, true) := by
      rw [← List.append_assoc]
      exact hrc
    have hrs : readStringE ((sentinel ++ t) ++ qc :: rest) = (sentinel ++ t, rest) := by
      simp [readStringE, hrc']
    rw [key, hrs]
    simp [startsWithL_append, List.drop_left]

/-- C10 witness: a closed string whose content starts with the sentinel
lexes as an ILLEGAL `unclosed string` token. -/
theorem unclosed_string_sentinel_rule_witness :
    nextTokenE none (qc :: (sentinel ++ "abc".toList) ++ qc :: []) =
      (⟨tILLEGAL, "unclosed string: " ++ String.mk "abc".toList⟩, some qc, []) :=
  (unclosed_string_sentinel_rule "abc".toList (by decide)).2 none []

/-- C6 witness: the amended comma rule on concrete inputs. -/
theorem comma_in_number_amended_witness :
    readNumberE (['1'] ++ ',' :: 'x' :: []) = (['1'] ++ [','], ['x']) ∧
    nextTokenE (some 'a') (',' :: ['5']) = (⟨tCOMMA, ","⟩, some ',', ['5']) :=
  ⟨comma_in_number_amended.1 ['1'] 'x' [] (by decide) (by decide) (by decide)
      (by decide) (by decide) (by decide) (by decide),
    comma_in_number_amended.2 (some 'a') ['5'] (by decide)⟩

/-- A successful comparison result is a match exactly when it is `true`. -/
theorem isOkTrue_ok (b : Bool) : isOkTrue (.ok b) = b := by cases b <;> rfl

/-- Same-field detection succeeds when every child is a comparison on `f`. -/
theorem allCmpFieldGo_const (f : String) :
    ∀ es : List Expr, (∀ e ∈ es, ∃ op lit, e = .cmp f op lit) →
      allCmpFieldGo es f = some f := by
  intro es
  induction es with
  | nil => intro _; rfl
  | cons e rest ih =>
    intro h
    obtain ⟨op, lit, rfl⟩ := h e (List.mem_cons_self e rest)
    have ihr := ih fun x hx => h x (List.mem_cons_of_mem _ hx)
    by_cases hf : f = ""
    · subst hf
      simp [allCmpFieldGo, ihr]
    · simp [allCmpFieldGo, hf, ihr]

/-- First step of same-field detection from the empty accumulator. -/
theorem allCmpFieldGo_cons_start (f : String) (op : TokenType) (lit : String)
    (l : List Expr) :
    allCmpFieldGo (Expr.cmp f op lit :: l) "" = allCmpFieldGo l f := rfl

/-- A comparison over a single resolved value returns exactly the result
of `compareValue` on it. -/
theorem evalCmp_single (f op lit : String) (item v : Value) (b : Bool)
    (hres : getFieldValues item f = .ok [v])
    (hb : compareValue f op lit v = .ok b) :
    evalCmp f op lit item = .ok b := by
  cases b <;> simp [evalCmp, hres, evalCmpVals, hb]

/-- C4 amended: the same-field `And` optimization agrees with naive
per-child evaluation whenever the shared field path resolves to exactly
one value, that value is not a collection, and each child comparison
evaluates on it without error; with several resolved values the two
disagree (see the counterexample). -/
theorem same_field_and_single_value (es : List Expr) (item : Value) (f : String) (v : Value)
    (hne : es ≠ [])
    (hcs : ∀ e ∈ es, ∃ op lit, e = Expr.cmp f op lit ∧ ∃ b, compareValue f op lit v = .ok b)
    (hres : getFieldValues item f = .ok [v])
    (hns : ∀ isNil elems, v ≠ .vSlice isNil elems) :
    evalExpr (.conj es) item = .ok (naiveAndMatches es item) := by
  have hchild : ∀ e ∈ es, ∃ b, evalExpr e item = .ok b ∧ cmpMatches e v = b := by
    intro e he
    obtain ⟨op, lit, rfl, b, hb⟩ := hcs e he
    exact ⟨b, by simp [evalExpr, evalCmp_single f op lit item v b hres hb],
      by simp [cmpMatches, hb]⟩
  have hall : ∀ l : List Expr,
      (∀ e ∈ l, ∃ b, evalExpr e item = .ok b ∧ cmpMatches e v = b) →
      (l.all fun e => cmpMatches e v) = (l.all fun e => isOkTrue (evalExpr e item)) := by
    intro l hl
    induction l with
    | nil => rfl
    | cons x xs ih =>
      obtain ⟨b, hb, hm⟩ := hl x (List.mem_cons_self x xs)
      have ihr := ih fun e he => hl e (List.mem_cons_of_mem _ he)
      simp [List.all_cons, hb, hm, isOkTrue_ok, ihr]
  cases es with
  | nil => exact absurd rfl hne
  | cons e1 rest =>
    cases rest with
    | nil =>
      obtain ⟨b, hb, _⟩ := hchild e1 (List.mem_cons_self e1 [])
      simp [evalExpr, hb, naiveAndMatches, isOkTrue_ok]
    | cons e2 rest2 =>
      have hdet : allCmpFieldGo (e1 :: e2 :: rest2) "" = some f := by
        obtain ⟨op, lit, rfl, _⟩ := hcs e1 (List.mem_cons_self e1 _)
        have hrest : ∀ x ∈ e2 :: rest2, ∃ op lit, x = Expr.cmp f op lit := by
          intro x hx
          obtain ⟨op2, lit2, rfl, _⟩ := hcs x (List.mem_cons_of_mem _ hx)
          exact ⟨op2, lit2, rfl⟩
        rw [allCmpFieldGo_cons_start]
        exact allCmpFieldGo_const f _ hrest
      have heq := hall (e1 :: e2 :: rest2) hchild
      have hmain : evalExpr (.conj (e1 :: e2 :: rest2)) item =
          .ok ((e1 :: e2 :: rest2).all fun e => cmpMatches e v) := by
        cases v with
        | vSlice isNil elems => exact absurd rfl (hns isNil elems)
        | vStr s => simp [evalExpr, hdet, hres]
        | vInt n => simp [evalExpr, hdet, hres]
        | vBool b => simp [evalExpr, hdet, hres]
        | vPtr o => simp [evalExpr, hdet, hres]
        | vStruct fs => simp [evalExpr, hdet, hres]
        | vMap entries => simp [evalExpr, hdet, hres]
      rw [hmain, heq]
      rfl

/-- C4 witness: the amended equivalence on a record whose `Age` field is a
single integer. -/
theorem same_field_and_single_value_witness :
    evalExpr (.conj [.cmp "Age" tGT "2", .cmp "Age" tLT "9"])
        (.vStruct [("Age", .vInt 5)]) =
      .ok (naiveAndMatches [.cmp "Age" tGT "2", .cmp "Age" tLT "9"]
        (.vStruct [("Age", .vInt 5)])) := by
  apply same_field_and_single_value _ _ "Age" (.vInt 5)
  · simp
  · intro e he
    rcases List.mem_cons.mp he with rfl | he2
    · exact ⟨tGT, "2", rfl, true, rfl⟩
    rcases List.mem_cons.mp he2 with rfl | he3
    · exact ⟨tLT, "9", rfl, true, rfl⟩
    cases he3
  · rfl
  · intro isNil elems h
    cases h

/-- The precedence query compiles to `astC7` and the driver then runs the
record loop with it. -/
theorem parseGo_C7 (data : List GoItem) :
    ParseGo "A = 1 OR B = 2 AND C = 3" data = evalLoop astC7 data := rfl

/-- Evaluating `astC7` on an `A`/`B`/`C` record decides
`A = 1 OR (B = 2 AND C = 3)`. -/
theorem evalExpr_astC7 (a b c : Int) :
    evalExpr astC7 (recABC a b c) = .ok ((a == 1) || ((b == 2) && (c == 3))) := by
  have hA : evalCmp "A" tEQ "1" (recABC a b c) = .ok (a == 1) :=
    evalCmp_single "A" tEQ "1" (recABC a b c) (.vInt a) (a == 1) rfl rfl
  have hB : evalCmp "B" tEQ "2" (recABC a b c) = .ok (b == 2) :=
    evalCmp_single "B" tEQ "2" (recABC a b c) (.vInt b) (b == 2) rfl rfl
  have hC : evalCmp "C" tEQ "3" (recABC a b c) = .ok (c == 3) :=
    evalCmp_single "C" tEQ "3" (recABC a b c) (.vInt c) (c == 3) rfl rfl
  have hdet : allCmpFieldGo [.cmp "B" tEQ "2", .cmp "C" tEQ "3"] "" = none := rfl
  cases ha1 : (a == 1) <;> cases hb2 : (b == 2) <;> cases hc3 : (c == 3) <;>
    · rw [ha1] at hA
      rw [hb2] at hB
      rw [hc3] at hC
      simp [astC7, evalExpr, evalDisjGo, evalConjFB, hdet, hA, hB, hC]

/-- The boolean evaluated by `astC7` agrees with the propositional form. -/
theorem astC7_bool_decide (a b c : Int) :
    ((a == 1) || ((b == 2) && (c == 3))) = decide (a = 1 ∨ b = 2 ∧ c = 3) := by
  by_cases h1 : a = 1 <;> by_cases h2 : b = 2 <;> by_cases h3 : c = 3 <;>
    simp [h1, h2, h3]

/-- C7: for every record collection, filtering with
`A = 1 OR B = 2 AND C = 3` selects exactly the records satisfying
`A = 1 OR (B = 2 AND C = 3)` — OR binds loosest, AND tighter — and in
particular a record with `A = 1, B = 0, C = 0` is selected, which the
grouping `(A = 1 OR B = 2) AND C = 3` would reject. -/
theorem or_binds_looser_than_and :
    (∀ l : List (Int × Int × Int),
      ParseGo "A = 1 OR B = 2 AND C = 3"
          (l.map fun t => GoItem.plain (recABC t.1 t.2.1 t.2.2)) =
        .ok ((l.filter fun t => decide (t.1 = 1 ∨ t.2.1 = 2 ∧ t.2.2 = 3)).map
          fun t => GoItem.plain (recABC t.1 t.2.1 t.2.2))) ∧
    ParseGo "A = 1 OR B = 2 AND C = 3" [GoItem.plain (recABC 1 0 0)] =
      .ok [GoItem.plain (recABC 1 0 0)] := by
  constructor
  · intro l
    rw [parseGo_C7]
    induction l with
    | nil => rfl
    | cons t rest ih =>
      have he : evalExpr astC7 (recABC t.1 t.2.1 t.2.2) =
          .ok (decide (t.1 = 1 ∨ t.2.1 = 2 ∧ t.2.2 = 3)) := by
        rw [evalExpr_astC7, astC7_bool_decide]
      simp only [recABC] at he ih ⊢
      by_cases hp : t.1 = 1 ∨ t.2.1 = 2 ∧ t.2.2 = 3
      · rw [decide_eq_true hp] at he
        simp [evalLoop, itemVal, he, hp, ih]
      · rw [decide_eq_false hp] at he
        simp [evalLoop, itemVal, he, hp, ih]
  · rfl

theorem spanB_eq_append (p : Char → Bool) (l : List Char) :
    (spanB p l).1 ++ (spanB p l).2 = l := by
  induction l with
  | nil => rfl
  | cons c r ih =>
    unfold spanB
    by_cases h : p c <;> simp [h, ih]

theorem spanB_pred (p : Char → Bool) (l : List Char) :
    ∀ c ∈ (spanB p l).1, p c = true := by
  induction l with
  | nil => intro c hc; simp [spanB] at hc
  | cons c r ih =>
    intro d hd
    unfold spanB at hd
    cases h : p c
    · rw [h] at hd; simp at hd
    · rw [h] at hd
      simp at hd
      rcases hd with h1 | h1
      · subst h1; exact h
      · exact ih d h1

theorem spanB_rest (p : Char → Bool) (l : List Char) :
    (spanB p l).2 = [] ∨ ∃ c t, (spanB p l).2 = c :: t ∧ p c = false := by
  induction l with
  | nil => left; rfl
  | cons c r ih =>
    unfold spanB
    cases h : p c
    · right; exact ⟨c, r, by simp [h], h⟩
    · simpa [h] using ih

theorem spanB_rest_length (p : Char → Bool) (l : List Char)
    (h : (spanB p l).1 ≠ []) : (spanB p l).2.length < l.length := by
  have happ := spanB_eq_append p l
  have hlen : (spanB p l).1.length + (spanB p l).2.length = l.length := by
    have := congrArg List.length happ
    rw [List.length_append] at this
    exact this
  have hpos : 0 < (spanB p l).1.length := List.length_pos.mpr h
  omega

theorem digitChar_digit {n : Nat} (h : n < 10) : isDigitB (digitChar n) = true := by
  interval_cases n <;> decide

theorem natToDigitsCore_digits : ∀ (fuel n : Nat), ∀ c ∈ natToDigitsCore fuel n, isDigitB c = true := by
  intro fuel
  induction fuel with
  | zero => intro n c hc; simp [natToDigitsCore] at hc
  | succ f ih =>
    intro n c hc
    unfold natToDigitsCore at hc
    by_cases h : n < 10
    · rw [if_pos h] at hc
      simp at hc
      subst hc
      exact digitChar_digit h
    · rw [if_neg h] at hc
      simp at hc
      rcases hc with h1 | h1
      · exact ih _ c h1
      · subst h1
        exact digitChar_digit (Nat.mod_lt _ (by norm_num))

theorem natToDigits_digits (n : Nat) : ∀ c ∈ natToDigits n, isDigitB c = true :=
  natToDigitsCore_digits (n + 1) n

theorem natToDigits_ne_nil (n : Nat) : natToDigits n ≠ [] := by
  unfold natToDigits natToDigitsCore
  split <;> simp

theorem tokStart_tokChar {c : Char} (h : isTokStart c = true) : isTokChar c = true := by
  unfold isTokStart at h
  unfold isTokChar
  rcases Bool.or_eq_true_iff.mp h with h1 | h1 <;> simp [h1]

theorem digit_tokChar {c : Char} (h : isDigitB c = true) : isTokChar c = true := by
  simp [isTokChar, isLetterOrDigitB, h]

theorem digit_tokStart {c : Char} (h : isDigitB c = true) : isTokStart c = true := by
  simp [isTokStart, isLetterOrDigitB, h]

theorem numtok_tokChar {c : Char} (h : isDigitB c = true ∨ c = '.') : isTokChar c = true := by
  rcases h with h | h
  · exact digit_tokChar h
  · subst h; decide

theorem numtok_tokStart {c : Char} (h : isDigitB c = true ∨ c = '.') : isTokStart c = true := by
  rcases h with h | h
  · exact digit_tokStart h
  · subst h; decide

theorem numtok_ne_qc {c : Char} (h : isDigitB c = true ∨ c = '.') : c ≠ qc := by
  rcases h with h | h
  · exact digit_ne h (by decide)
  · subst h; decide

theorem durUnitNanos_none_of_head {c : Char} (hc : isDigitB c = true ∨ c = '.')
    (t : List Char) : durUnitNanos (c :: t) = none := by
  have h6 : c ≠ 'n' ∧ c ≠ 'u' ∧ c ≠ 'm' ∧ c ≠ 's' ∧ c ≠ 'h' ∧ c ≠ 'd' := by
    rcases hc with h | h
    · exact ⟨digit_ne h (by decide), digit_ne h (by decide), digit_ne h (by decide),
        digit_ne h (by decide), digit_ne h (by decide), digit_ne h (by decide)⟩
    · subst h; exact ⟨by decide, by decide, by decide, by decide, by decide, by decide⟩
  obtain ⟨h1, h2, h3, h4, h5, h6'⟩ := h6
  simp [durUnitNanos, h1, h2, h3, h4, h5, h6']

theorem byteUnitMult_none_of_head {c : Char} (hc : isDigitB c = true ∨ c = '.')
    (t : List Char) : byteUnitMult (c :: t) = none := by
  have h9 : c ≠ 'B' ∧ c ≠ 'K' ∧ c ≠ 'M' ∧ c ≠ 'G' ∧ c ≠ 'T' ∧ c ≠ 'P' ∧ c ≠ 'E' ∧ c ≠ 'Z' ∧ c ≠ 'Y' := by
    rcases hc with h | h
    · exact ⟨digit_ne h (by decide), digit_ne h (by decide), digit_ne h (by decide),
        digit_ne h (by decide), digit_ne h (by decide), digit_ne h (by decide),
        digit_ne h (by decide), digit_ne h (by decide), digit_ne h (by decide)⟩
    · subst h
      exact ⟨by decide, by decide, by decide, by decide, by decide, by decide, by decide,
        by decide, by decide⟩
  obtain ⟨h1, h2, h3, h4, h5, h6, h7, h8, h9'⟩ := h9
  simp [byteUnitMult, h1, h2, h3, h4, h5, h6, h7, h8, h9']

theorem parseCommaInt_none_of (t : List Char)
    (h : ∀ c ∈ t, isDigitB c = true ∨ c = '.') : parseCommaInt t = none := by
  have hnm : (',') ∉ t := by
    intro hm
    rcases h ',' hm with h1 | h1
    · simp [isDigitB] at h1
    · simp at h1
  have hc : t.contains ',' = false := by
    simpa using hnm
  have hcond : (t.contains ',' && !t.contains '.') = false := by rw [hc]; rfl
  unfold parseCommaInt
  rw [hcond]
  simp

theorem scanNumeral_some (cs ds fs r : List Char)
    (h : scanNumeral cs = some (ds, fs, r)) :
    ds ≠ [] ∧ (∀ c ∈ ds, isDigitB c = true) ∧ (∀ c ∈ fs, isDigitB c = true) ∧
    (∀ c ∈ r, c ∈ cs) ∧ (r = [] ∨ ∃ c t, r = c :: t ∧ isDigitB c = false) := by
  have hds := spanB_pred isDigitB cs
  have happ := spanB_eq_append isDigitB cs
  have hrst := spanB_rest isDigitB cs
  have hmem2 : ∀ c, c ∈ (spanB isDigitB cs).2 → c ∈ cs := by
    intro c hc
    rw [← happ]
    exact List.mem_append_right _ hc
  simp only [scanNumeral] at h
  split at h
  · exact absurd h (by simp)
  next hemp =>
    have hne : (spanB isDigitB cs).1 ≠ [] := by
      intro he
      rw [he] at hemp
      simp at hemp
    split at h
    · next r2 heq =>
      split at h
      · simp only [Option.some.injEq, Prod.mk.injEq] at h
        obtain ⟨h1, h2, h3⟩ := h
        subst h1; subst h2; subst h3
        refine ⟨hne, hds, by simp, ?_, ?_⟩
        · intro c hc
          exact hmem2 c (heq ▸ hc)
        · exact Or.inr ⟨'.', r2, rfl, by decide⟩
      · simp only [Option.some.injEq, Prod.mk.injEq] at h
        obtain ⟨h1, h2, h3⟩ := h
        subst h1; subst h2; subst h3
        have happ2 := spanB_eq_append isDigitB r2
        refine ⟨hne, hds, spanB_pred isDigitB r2, ?_, spanB_rest isDigitB r2⟩
        intro c hc
        have hc2 : c ∈ r2 := by
          rw [← happ2]
          exact List.mem_append_right _ hc
        exact hmem2 c (heq ▸ List.mem_cons_of_mem '.' hc2)
    · simp only [Option.some.injEq, Prod.mk.injEq] at h
      obtain ⟨h1, h2, h3⟩ := h
      subst h1; subst h2; subst h3
      exact ⟨hne, hds, by simp, hmem2, hrst⟩

theorem parseSINorm_some (t out : List Char) (h : parseSINorm t = some out) :
    out ≠ [] ∧ ∀ c ∈ out, isDigitB c = true ∨ c = '.' := by
  simp only [parseSINorm] at h
  split at h
  · cases h
  next ds fs r hsn =>
    split at h
    · next u =>
      split at h
      · cases h
      next k hk =>
        simp only [Option.some.injEq] at h
        subst h
        obtain ⟨-, hdsd, hfsd, -, -⟩ := scanNumeral_some t ds fs [u] hsn
        have hallfd : ∀ c ∈ fs ++ List.replicate k '0', isDigitB c = true := by
          intro c hc
          rcases List.mem_append.mp hc with h1 | h1
          · exact hfsd c h1
          · rw [List.eq_of_mem_replicate h1]; decide
        have hipart : ∀ c ∈ ds ++ (fs ++ List.replicate k '0').take k, isDigitB c = true := by
          intro c hc
          rcases List.mem_append.mp hc with h1 | h1
          · exact hdsd c h1
          · exact hallfd c (List.take_subset k _ h1)
        have hcanon_ne : canonInt (ds ++ (fs ++ List.replicate k '0').take k) ≠ [] := by
          simp only [canonInt]
          split
          · simp
          · next hne => simpa using hne
        have hcanond : ∀ c ∈ canonInt (ds ++ (fs ++ List.replicate k '0').take k),
            isDigitB c = true := by
          intro c hc
          simp only [canonInt] at hc
          split at hc
          · simp at hc
            subst hc
            decide
          · exact hipart c ((List.dropWhile_sublist _).subset hc)
        have hfpart : ∀ c ∈ stripTrailingZeros ((fs ++ List.replicate k '0').drop k),
            isDigitB c = true := by
          intro c hc
          unfold stripTrailingZeros at hc
          rw [List.mem_reverse] at hc
          have hm := (List.dropWhile_sublist _).subset hc
          rw [List.mem_reverse] at hm
          exact hallfd c (List.drop_subset k _ hm)
        constructor
        · intro he
          exact hcanon_ne (List.append_eq_nil.mp he).1
        · intro c hc
          rcases List.mem_append.mp hc with h1 | h1
          · exact Or.inl (hcanond c h1)
          · split at h1
            · simp at h1
            · rcases List.mem_cons.mp h1 with rfl | h2
              · exact Or.inr rfl
              · exact Or.inl (hfpart c h2)
    · cases h

theorem normToken_fixed_of_numeric (t : List Char)
    (h : ∀ c ∈ t, isDigitB c = true ∨ c = '.') : normToken t = t := by
  have hrest : ∀ ds fs r, scanNumeral t = some (ds, fs, r) →
      r = [] ∨ ∃ t', r = '.' :: t' := by
    intro ds fs r hsn
    obtain ⟨-, -, -, hmem, hshape⟩ := scanNumeral_some t ds fs r hsn
    rcases hshape with rfl | ⟨c, t', rfl, hcd⟩
    · exact Or.inl rfl
    · right
      rcases h c (hmem c (List.mem_cons_self c t')) with hd | hd
      · rw [hd] at hcd; cases hcd
      · exact ⟨t', by rw [hd]⟩
  have hdur : parseTimeDuration t = none := by
    have hpd : parseDurFrac (t.length + 1) t = none := by
      simp only [parseDurFrac]
      cases hsn : scanNumeral t with
      | none => rfl
      | some p =>
        obtain ⟨ds, fs, r⟩ := p
        rcases hrest ds fs r hsn with rfl | ⟨t', rfl⟩
        · rfl
        · have hnone := durUnitNanos_none_of_head (Or.inr rfl) t'
          simp [hnone]
    unfold parseTimeDuration
    rw [hpd]
    rfl
  have hbyte : parseByteSize t = none := by
    simp only [parseByteSize]
    cases hsn : scanNumeral t with
    | none => rfl
    | some p =>
      obtain ⟨ds, fs, r⟩ := p
      rcases hrest ds fs r hsn with rfl | ⟨t', rfl⟩
      · rfl
      · have hnone := byteUnitMult_none_of_head (Or.inr rfl) t'
        simp [hnone]
  have hsi : parseSINorm t = none := by
    simp only [parseSINorm]
    cases hsn : scanNumeral t with
    | none => rfl
    | some p =>
      obtain ⟨ds, fs, r⟩ := p
      rcases hrest ds fs r hsn with rfl | ⟨t', rfl⟩
      · rfl
      · cases t' with
        | nil => rfl
        | cons c2 t2 => rfl
  have hcm := parseCommaInt_none_of t h
  unfold normToken
  rw [hdur, hbyte, hsi, hcm]

theorem normToken_cases (t : List Char) :
    normToken t = t ∨
      (normToken t ≠ [] ∧ ∀ c ∈ normToken t, isDigitB c = true ∨ c = '.') := by
  cases hd : parseTimeDuration t with
  | some n =>
    have he : normToken t = natToDigits n := by unfold normToken; rw [hd]
    right
    rw [he]
    exact ⟨natToDigits_ne_nil n, fun c hc => Or.inl (natToDigits_digits n c hc)⟩
  | none =>
    cases hb : parseByteSize t with
    | some n =>
      have he : normToken t = natToDigits n := by unfold normToken; rw [hd, hb]
      right
      rw [he]
      exact ⟨natToDigits_ne_nil n, fun c hc => Or.inl (natToDigits_digits n c hc)⟩
    | none =>
      cases hs : parseSINorm t with
      | some out =>
        have he : normToken t = out := by unfold normToken; rw [hd, hb, hs]
        right
        rw [he]
        exact parseSINorm_some t out hs
      | none =>
        cases hc : parseCommaInt t with
        | some n =>
          have he : normToken t = natToDigits n := by unfold normToken; rw [hd, hb, hs, hc]
          right
          rw [he]
          exact ⟨natToDigits_ne_nil n, fun c hcm => Or.inl (natToDigits_digits n c hcm)⟩
        | none =>
          left
          unfold normToken
          rw [hd, hb, hs, hc]

theorem scanQuoted_qc (r : List Char) : scanQuoted (qc :: r) = ([qc], r, true) := by
  unfold scanQuoted
  rw [if_pos rfl]

theorem scanQuoted_bs_nil : scanQuoted [bs] = ([bs], [], false) := by
  unfold scanQuoted
  rw [if_neg (by decide : ¬(bs = qc)), if_pos rfl]

theorem scanQuoted_bs_qc (r2 : List Char) :
    scanQuoted (bs :: qc :: r2)
      = (bs :: qc :: (scanQuoted r2).1, (scanQuoted r2).2.1, (scanQuoted r2).2.2) := rfl

theorem scanQuoted_bs_other {c2 : Char} (h2 : c2 ≠ qc) (r2 : List Char) :
    scanQuoted (bs :: c2 :: r2)
      = (bs :: (scanQuoted (c2 :: r2)).1, (scanQuoted (c2 :: r2)).2.1,
          (scanQuoted (c2 :: r2)).2.2) := by
  have hstep : scanQuoted (bs :: c2 :: r2) =
      if c2 = qc then
        (bs :: c2 :: (scanQuoted r2).1, (scanQuoted r2).2.1, (scanQuoted r2).2.2)
      else
        (bs :: (scanQuoted (c2 :: r2)).1, (scanQuoted (c2 :: r2)).2.1,
          (scanQuoted (c2 :: r2)).2.2) := rfl
  rw [hstep, if_neg h2]

theorem scanQuoted_other {c : Char} (hq : c ≠ qc) (hb : c ≠ bs) (r : List Char) :
    scanQuoted (c :: r)
      = (c :: (scanQuoted r).1, (scanQuoted r).2.1, (scanQuoted r).2.2) := by
  cases r with
  | nil =>
    have hstep : scanQuoted [c]
        = if c = qc then ([c], ([] : List Char), true)
          else if c = bs then ([c], ([] : List Char), false)
          else (c :: (scanQuoted ([] : List Char)).1, (scanQuoted ([] : List Char)).2.1,
            (scanQuoted ([] : List Char)).2.2) := rfl
    rw [hstep, if_neg hq, if_neg hb]
  | cons c1 r1 =>
    have hstep : scanQuoted (c :: c1 :: r1)
        = if c = qc then ([c], c1 :: r1, true)
          else if c = bs then
            (if c1 = qc then
              (c :: c1 :: (scanQuoted r1).1, (scanQuoted r1).2.1, (scanQuoted r1).2.2)
            else
              (c :: (scanQuoted (c1 :: r1)).1, (scanQuoted (c1 :: r1)).2.1,
                (scanQuoted (c1 :: r1)).2.2))
          else (c :: (scanQuoted (c1 :: r1)).1, (scanQuoted (c1 :: r1)).2.1,
            (scanQuoted (c1 :: r1)).2.2) := rfl
    rw [hstep, if_neg hq, if_neg hb]

theorem scanQuoted_fst_cons (c : Char) (r : List Char) :
    ∃ t, (scanQuoted (c :: r)).1 = c :: t := by
  by_cases hq : c = qc
  · subst hq
    exact ⟨[], by rw [scanQuoted_qc]⟩
  · by_cases hb : c = bs
    · subst hb
      cases r with
      | nil => exact ⟨[], by rw [scanQuoted_bs_nil]⟩
      | cons c2 r2 =>
        by_cases h2 : c2 = qc
        · subst h2
          exact ⟨qc :: (scanQuoted r2).1, by rw [scanQuoted_bs_qc]⟩
        · exact ⟨(scanQuoted (c2 :: r2)).1, by rw [scanQuoted_bs_other h2]⟩
    · exact ⟨(scanQuoted r).1, by rw [scanQuoted_other hq hb]⟩

theorem scanQuoted_rest_len : ∀ (n : Nat) (cs : List Char), cs.length ≤ n →
    (scanQuoted cs).2.1.length ≤ cs.length := by
  intro n
  induction n with
  | zero =>
    intro cs hle
    have hcs : cs = [] := List.eq_nil_of_length_eq_zero (Nat.le_zero.mp hle)
    subst hcs
    simp [scanQuoted]
  | succ n ih =>
    intro cs hle
    cases cs with
    | nil => simp [scanQuoted]
    | cons c r0 =>
      simp only [List.length_cons] at hle
      by_cases hq : c = qc
      · subst hq
        rw [scanQuoted_qc]
        show r0.length ≤ (qc :: r0).length
        simp
      · by_cases hb : c = bs
        · subst hb
          cases r0 with
          | nil =>
            rw [scanQuoted_bs_nil]
            simp
          | cons c2 r2 =>
            simp only [List.length_cons] at hle
            by_cases h2 : c2 = qc
            · subst h2
              rw [scanQuoted_bs_qc]
              have h1 := ih r2 (by omega)
              show (scanQuoted r2).2.1.length ≤ (bs :: qc :: r2).length
              simp only [List.length_cons]
              omega
            · rw [scanQuoted_bs_other h2]
              have h1 := ih (c2 :: r2) (by simp only [List.length_cons]; omega)
              show (scanQuoted (c2 :: r2)).2.1.length ≤ (bs :: c2 :: r2).length
              simp only [List.length_cons] at h1 ⊢
              omega
        · rw [scanQuoted_other hq hb]
          have h1 := ih r0 (by omega)
          show (scanQuoted r0).2.1.length ≤ (c :: r0).length
          simp only [List.length_cons]
          omega

theorem scanQuoted_unclosed : ∀ (n : Nat) (cs b r : List Char), cs.length ≤ n →
    scanQuoted cs = (b, r, false) → b = cs ∧ r = [] := by
  intro n
  induction n with
  | zero =>
    intro cs b r hle h
    have hcs : cs = [] := List.eq_nil_of_length_eq_zero (Nat.le_zero.mp hle)
    subst hcs
    simp only [scanQuoted, Prod.mk.injEq] at h
    exact ⟨h.1.symm, h.2.1.symm⟩
  | succ n ih =>
    intro cs b r hle h
    cases cs with
    | nil =>
      simp only [scanQuoted, Prod.mk.injEq] at h
      exact ⟨h.1.symm, h.2.1.symm⟩
    | cons c r0 =>
      simp only [List.length_cons] at hle
      by_cases hq : c = qc
      · subst hq
        rw [scanQuoted_qc] at h
        simp only [Prod.mk.injEq] at h
        exact absurd h.2.2 (by simp)
      · by_cases hb : c = bs
        · subst hb
          cases r0 with
          | nil =>
            rw [scanQuoted_bs_nil] at h
            simp only [Prod.mk.injEq] at h
            exact ⟨h.1.symm, h.2.1.symm⟩
          | cons c2 r2 =>
            simp only [List.length_cons] at hle
            by_cases h2 : c2 = qc
            · subst h2
              rw [scanQuoted_bs_qc] at h
              simp only [Prod.mk.injEq] at h
              obtain ⟨h1, h2', h3⟩ := h
              have hrec : scanQuoted r2 = ((scanQuoted r2).1, (scanQuoted r2).2.1, false) := by
                rw [← h3]
              obtain ⟨hb', hr'⟩ := ih r2 _ _ (by omega) hrec
              refine ⟨?_, by rw [← h2', hr']⟩
              rw [← h1, hb']
            · rw [scanQuoted_bs_other h2] at h
              simp only [Prod.mk.injEq] at h
              obtain ⟨h1, h2', h3⟩ := h
              have hrec : scanQuoted (c2 :: r2)
                  = ((scanQuoted (c2 :: r2)).1, (scanQuoted (c2 :: r2)).2.1, false) := by
                rw [← h3]
              obtain ⟨hb', hr'⟩ := ih (c2 :: r2) _ _ (by simp only [List.length_cons]; omega) hrec
              refine ⟨?_, by rw [← h2', hr']⟩
              rw [← h1, hb']
        · rw [scanQuoted_other hq hb] at h
          simp only [Prod.mk.injEq] at h
          obtain ⟨h1, h2', h3⟩ := h
          have hrec : scanQuoted r0 = ((scanQuoted r0).1, (scanQuoted r0).2.1, false) := by
            rw [← h3]
          obtain ⟨hb', hr'⟩ := ih r0 _ _ (by omega) hrec
          refine ⟨?_, by rw [← h2', hr']⟩
          rw [← h1, hb']

theorem scanQuoted_closed : ∀ (n : Nat) (cs b r : List Char), cs.length ≤ n →
    scanQuoted cs = (b, r, true) → ∀ u, scanQuoted (b ++ u) = (b, u, true) := by
  intro n
  induction n with
  | zero =>
    intro cs b r hle h u
    have hcs : cs = [] := List.eq_nil_of_length_eq_zero (Nat.le_zero.mp hle)
    subst hcs
    simp only [scanQuoted, Prod.mk.injEq] at h
    exact absurd h.2.2 (by simp)
  | succ n ih =>
    intro cs b r hle h u
    cases cs with
    | nil =>
      simp only [scanQuoted, Prod.mk.injEq] at h
      exact absurd h.2.2 (by simp)
    | cons c r0 =>
      simp only [List.length_cons] at hle
      by_cases hq : c = qc
      · subst hq
        rw [scanQuoted_qc] at h
        simp only [Prod.mk.injEq] at h
        obtain ⟨h1, h2', -⟩ := h
        subst h1
        exact scanQuoted_qc u
      · by_cases hb : c = bs
        · subst hb
          cases r0 with
          | nil =>
            rw [scanQuoted_bs_nil] at h
            simp only [Prod.mk.injEq] at h
            exact absurd h.2.2 (by simp)
          | cons c2 r2 =>
            simp only [List.length_cons] at hle
            by_cases h2 : c2 = qc
            · subst h2
              rw [scanQuoted_bs_qc] at h
              simp only [Prod.mk.injEq] at h
              obtain ⟨h1, h2', h3⟩ := h
              have hrec : scanQuoted r2 = ((scanQuoted r2).1, (scanQuoted r2).2.1, true) := by
                rw [← h3]
              have hcl := ih r2 _ _ (by omega) hrec
              subst h1
              have hbu : (bs :: qc :: (scanQuoted r2).1) ++ u
                  = bs :: qc :: ((scanQuoted r2).1 ++ u) := rfl
              rw [hbu, scanQuoted_bs_qc, hcl u]
            · rw [scanQuoted_bs_other h2] at h
              simp only [Prod.mk.injEq] at h
              obtain ⟨h1, h2', h3⟩ := h
              have hrec : scanQuoted (c2 :: r2)
                  = ((scanQuoted (c2 :: r2)).1, (scanQuoted (c2 :: r2)).2.1, true) := by
                rw [← h3]
              have hcl := ih (c2 :: r2) _ _ (by simp only [List.length_cons]; omega) hrec
              obtain ⟨b'', hb''⟩ := scanQuoted_fst_cons c2 r2
              subst h1
              have hbu : (bs :: (scanQuoted (c2 :: r2)).1) ++ u
                  = bs :: c2 :: (b'' ++ u) := by
                rw [hb'']
                rfl
              rw [hbu, scanQuoted_bs_other h2,
                show c2 :: (b'' ++ u) = (scanQuoted (c2 :: r2)).1 ++ u by rw [hb'']; rfl,
                hcl u]
        · rw [scanQuoted_other hq hb] at h
          simp only [Prod.mk.injEq] at h
          obtain ⟨h1, h2', h3⟩ := h
          have hrec : scanQuoted r0 = ((scanQuoted r0).1, (scanQuoted r0).2.1, true) := by
            rw [← h3]
          have hcl := ih r0 _ _ (by omega) hrec
          subst h1
          have hbu : (c :: (scanQuoted r0).1) ++ u = c :: ((scanQuoted r0).1 ++ u) := rfl
          rw [hbu, scanQuoted_other hq hb, hcl u]

theorem normCore_nil (f : Nat) : normCore f [] = [] := by
  cases f <;> rfl

theorem normCore_qc (f : Nat) (cs' : List Char) :
    normCore (f + 1) (qc :: cs')
      = qc :: (scanQuoted cs').1 ++ normCore f (scanQuoted cs').2.1 := rfl

theorem normCore_tok {c : Char} (hq : c ≠ qc) (ht : isTokStart c = true) (f : Nat)
    (cs' : List Char) :
    normCore (f + 1) (c :: cs')
      = normToken (spanB isTokChar (c :: cs')).1
          ++ normCore f (spanB isTokChar (c :: cs')).2 := by
  have hstep : normCore (f + 1) (c :: cs')
      = if c = qc then c :: (scanQuoted cs').1 ++ normCore f (scanQuoted cs').2.1
        else if isTokStart c then
          normToken (spanB isTokChar (c :: cs')).1 ++ normCore f (spanB isTokChar (c :: cs')).2
        else c :: normCore f cs' := rfl
  rw [hstep, if_neg hq, if_pos ht]

theorem normCore_other {c : Char} (hq : c ≠ qc) (ht : isTokStart c = false) (f : Nat)
    (cs' : List Char) :
    normCore (f + 1) (c :: cs') = c :: normCore f cs' := by
  have hstep : normCore (f + 1) (c :: cs')
      = if c = qc then c :: (scanQuoted cs').1 ++ normCore f (scanQuoted cs').2.1
        else if isTokStart c then
          normToken (spanB isTokChar (c :: cs')).1 ++ normCore f (spanB isTokChar (c :: cs')).2
        else c :: normCore f cs' := rfl
  rw [hstep, if_neg hq, if_neg (by simp [ht])]

theorem normCore_fuel : ∀ (n : Nat) (cs : List Char), cs.length ≤ n →
    ∀ f g, cs.length < f → cs.length < g → normCore f cs = normCore g cs := by
  intro n
  induction n with
  | zero =>
    intro cs hle f g hf hg
    have hcs : cs = [] := List.eq_nil_of_length_eq_zero (Nat.le_zero.mp hle)
    subst hcs
    rw [normCore_nil, normCore_nil]
  | succ n ih =>
    intro cs hle f g hf hg
    cases cs with
    | nil => rw [normCore_nil, normCore_nil]
    | cons c cs' =>
      simp only [List.length_cons] at hle hf hg
      obtain ⟨f', rfl⟩ : ∃ f', f = f' + 1 := ⟨f - 1, by omega⟩
      obtain ⟨g', rfl⟩ : ∃ g', g = g' + 1 := ⟨g - 1, by omega⟩
      by_cases hq : c = qc
      · subst hq
        rw [normCore_qc, normCore_qc]
        have hrl := scanQuoted_rest_len cs'.length cs' le_rfl
        rw [ih (scanQuoted cs').2.1 (by omega) f' g' (by omega) (by omega)]
      · by_cases ht : isTokStart c
        · have hne : (spanB isTokChar (c :: cs')).1 ≠ [] := by
            unfold spanB
            rw [if_pos (tokStart_tokChar ht)]
            simp
          have hlt := spanB_rest_length isTokChar (c :: cs') hne
          simp only [List.length_cons] at hlt
          rw [normCore_tok hq ht, normCore_tok hq ht]
          rw [ih (spanB isTokChar (c :: cs')).2 (by omega) f' g' (by omega) (by omega)]
        · have ht' : isTokStart c = false := by simpa using ht
          rw [normCore_other hq ht', normCore_other hq ht']
          rw [ih cs' (by omega) f' g' (by omega) (by omega)]

theorem normL_eq {f : Nat} {cs : List Char} (h : cs.length < f) :
    normCore f cs = normL cs :=
  normCore_fuel cs.length cs le_rfl f (cs.length + 1) h (by omega)

theorem normCore_head_not_tok (f : Nat) (l : List Char)
    (hl : l = [] ∨ ∃ c t, l = c :: t ∧ isTokChar c = false) :
    normCore f l = [] ∨ ∃ c t, normCore f l = c :: t ∧ isTokChar c = false := by
  rcases hl with rfl | ⟨c, t, rfl, hc⟩
  · left
    exact normCore_nil f
  · cases f with
    | zero => left; rfl
    | succ f =>
      by_cases hq : c = qc
      · subst hq
        right
        exact ⟨qc, (scanQuoted t).1 ++ normCore f (scanQuoted t).2.1,
          by rw [normCore_qc, List.cons_append], by decide⟩
      · have ht : isTokStart c = false := by
          cases hts : isTokStart c
          · rfl
          · exact absurd (tokStart_tokChar hts) (by simp [hc])
        right
        exact ⟨c, normCore f t, by rw [normCore_other hq ht], hc⟩

theorem spanB_cons_pos {p : Char → Bool} {c : Char} (h : p c = true) (r : List Char) :
    spanB p (c :: r) = (c :: (spanB p r).1, (spanB p r).2) := by
  have hstep : spanB p (c :: r)
      = if p c then (c :: (spanB p r).1, (spanB p r).2) else ([], c :: r) := rfl
  rw [hstep, if_pos h]

theorem normL_step_tok (c0 : Char) (t0 X : List Char)
    (h0q : c0 ≠ qc) (h0s : isTokStart c0 = true)
    (hchars : ∀ x ∈ c0 :: t0, isTokChar x = true)
    (hXsh : X = [] ∨ ∃ c1 t1, X = c1 :: t1 ∧ isTokChar c1 = false) :
    normL ((c0 :: t0) ++ X) = normToken (c0 :: t0) ++ normL X := by
  have hspan := spanB_append isTokChar (c0 :: t0) X hchars hXsh
  show normCore ((t0 ++ X).length + 1 + 1) (c0 :: (t0 ++ X)) = normToken (c0 :: t0) ++ normL X
  rw [normCore_tok h0q h0s]
  have hspan' : spanB isTokChar (c0 :: (t0 ++ X)) = (c0 :: t0, X) := hspan
  rw [hspan']
  show normToken (c0 :: t0) ++ normCore ((t0 ++ X).length + 1) X = normToken (c0 :: t0) ++ normL X
  have hlen : X.length < (t0 ++ X).length + 1 := by
    rw [List.length_append]
    omega
  rw [normL_eq hlen]

theorem normL_idem : ∀ (n : Nat) (cs : List Char), cs.length ≤ n →
    normL (normL cs) = normL cs := by
  intro n
  induction n with
  | zero =>
    intro cs hle
    have hcs : cs = [] := List.eq_nil_of_length_eq_zero (Nat.le_zero.mp hle)
    subst hcs
    rfl
  | succ n ih =>
    intro cs hle
    cases cs with
    | nil => rfl
    | cons c cs' =>
      simp only [List.length_cons] at hle
      by_cases hq : c = qc
      · subst hq
        have hrl := scanQuoted_rest_len cs'.length cs' le_rfl
        have h1 : normL (qc :: cs')
            = qc :: (scanQuoted cs').1 ++ normL (scanQuoted cs').2.1 := by
          show normCore (cs'.length + 1 + 1) (qc :: cs') = _
          have hlen : (scanQuoted cs').2.1.length < cs'.length + 1 := by omega
          rw [normCore_qc, normL_eq hlen]
        cases hcl : (scanQuoted cs').2.2 with
        | false =>
          have hrec : scanQuoted cs' = ((scanQuoted cs').1, (scanQuoted cs').2.1, false) := by
            rw [← hcl]
          obtain ⟨hb', hr'⟩ := scanQuoted_unclosed cs'.length cs' _ _ le_rfl hrec
          rw [hb', hr'] at h1
          rw [show normL ([] : List Char) = [] from rfl, List.append_nil] at h1
          rw [h1]
          exact h1
        | true =>
          have hrec : scanQuoted cs' = ((scanQuoted cs').1, (scanQuoted cs').2.1, true) := by
            rw [← hcl]
          have hcls := scanQuoted_closed cs'.length cs' _ _ le_rfl hrec
          have hih := ih (scanQuoted cs').2.1 (by omega)
          rw [h1]
          show normCore ((((scanQuoted cs').1 ++ normL (scanQuoted cs').2.1).length) + 1 + 1)
              (qc :: ((scanQuoted cs').1 ++ normL (scanQuoted cs').2.1))
            = qc :: (scanQuoted cs').1 ++ normL (scanQuoted cs').2.1
          rw [normCore_qc, hcls (normL (scanQuoted cs').2.1)]
          show qc :: (scanQuoted cs').1
              ++ normCore (((scanQuoted cs').1 ++ normL (scanQuoted cs').2.1).length + 1)
                  (normL (scanQuoted cs').2.1)
            = qc :: (scanQuoted cs').1 ++ normL (scanQuoted cs').2.1
          have hlen : (normL (scanQuoted cs').2.1).length
              < ((scanQuoted cs').1 ++ normL (scanQuoted cs').2.1).length + 1 := by
            rw [List.length_append]
            omega
          rw [normL_eq hlen, hih]
      · by_cases ht : isTokStart c
        · have htc : isTokChar c = true := tokStart_tokChar ht
          have hne : (spanB isTokChar (c :: cs')).1 ≠ [] := by
            rw [spanB_cons_pos htc]
            simp
          have hlt := spanB_rest_length isTokChar (c :: cs') hne
          simp only [List.length_cons] at hlt
          have h1 : normL (c :: cs')
              = normToken (spanB isTokChar (c :: cs')).1
                  ++ normL (spanB isTokChar (c :: cs')).2 := by
            show normCore (cs'.length + 1 + 1) (c :: cs') = _
            have hlen : (spanB isTokChar (c :: cs')).2.length < cs'.length + 1 := by omega
            rw [normCore_tok hq ht, normL_eq hlen]
          have htk_chars := spanB_pred isTokChar (c :: cs')
          have htk_head : ∃ t0, (spanB isTokChar (c :: cs')).1 = c :: t0 :=
            ⟨(spanB isTokChar cs').1, by rw [spanB_cons_pos htc]⟩
          have hrsh := spanB_rest isTokChar (c :: cs')
          have hXsh : normL (spanB isTokChar (c :: cs')).2 = []
              ∨ ∃ c1 t1, normL (spanB isTokChar (c :: cs')).2 = c1 :: t1
                  ∧ isTokChar c1 = false :=
            normCore_head_not_tok _ _ hrsh
          have hih := ih (spanB isTokChar (c :: cs')).2 (by omega)
          rcases normToken_cases (spanB isTokChar (c :: cs')).1 with heq | ⟨hne', hdig⟩
          · obtain ⟨t0, htk0⟩ := htk_head
            have himg : normToken (spanB isTokChar (c :: cs')).1 = c :: t0 := by
              rw [heq]
              exact htk0
            have himg4 : normToken (normToken (spanB isTokChar (c :: cs')).1)
                = normToken (spanB isTokChar (c :: cs')).1 := by
              rw [heq]
              exact heq
            have hchars : ∀ x ∈ c :: t0, isTokChar x = true := by
              rw [← htk0]
              exact fun x hx => htk_chars x hx
            rw [h1, himg]
            rw [normL_step_tok c t0 (normL (spanB isTokChar (c :: cs')).2) hq ht hchars hXsh,
              hih, ← himg, himg4]
          · have himg4 := normToken_fixed_of_numeric _ hdig
            cases himgsh : normToken (spanB isTokChar (c :: cs')).1 with
            | nil => exact absurd himgsh hne'
            | cons c0 t0 =>
              have h0 : isDigitB c0 = true ∨ c0 = '.' := by
                refine hdig c0 ?_
                rw [himgsh]
                exact List.mem_cons_self c0 t0
              have hchars : ∀ x ∈ c0 :: t0, isTokChar x = true := by
                rw [← himgsh]
                exact fun x hx => numtok_tokChar (hdig x hx)
              have himg4' : normToken (c0 :: t0) = c0 :: t0 := by
                rw [← himgsh]
                exact himg4
              rw [h1, himgsh]
              rw [normL_step_tok c0 t0 (normL (spanB isTokChar (c :: cs')).2)
                  (numtok_ne_qc h0) (numtok_tokStart h0) hchars hXsh,
                hih, himg4']
        · have ht' : isTokStart c = false := by simpa using ht
          have h1 : normL (c :: cs') = c :: normL cs' := by
            show normCore (cs'.length + 1 + 1) (c :: cs') = _
            have hlen : cs'.length < cs'.length + 1 := by omega
            rw [normCore_other hq ht', normL_eq hlen]
          have hih := ih cs' (by omega)
          rw [h1]
          show normCore ((normL cs').length + 1 + 1) (c :: normL cs') = c :: normL cs'
          have hlen : (normL cs').length < (normL cs').length + 1 := by omega
          rw [normCore_other hq ht', normL_eq hlen, hih]

/-- C5: the value normalizer is idempotent — for every input string `q`,
`normalizeHumanizedValues (normalizeHumanizedValues q) = normalizeHumanizedValues q`:
a second pass leaves the output of the first pass unchanged. -/
theorem normalize_idempotent (q : String) :
    normalizeHumanizedValues (normalizeHumanizedValues q) = normalizeHumanizedValues q := by
  unfold normalizeHumanizedValues
  by_cases hq : q = ""
  · rw [if_pos hq, if_pos hq]
  · rw [if_neg hq]
    by_cases h2 : String.mk (normCore (q.toList.length + 1) q.toList) = ""
    · rw [if_pos h2]
    · rw [if_neg h2]
      exact congrArg String.mk (normL_idem q.toList.length q.toList le_rfl)

end QueryParser
